import Mathlib

/-!
A shallow embedding of `paddle/framework/backward.cc`: the gradient graph
builder of the PaddlePaddle framework.  Operator nodes are either primitive
operators or composite network operators (`NetOp`); the builder walks a
forward operator tree and produces the backward graph, threading through a
no-gradient name set and a unique-id counter.

External collaborators (`op_registry`, `net_op`, `operator.h`) are not part
of the translated source file; where the builder depends on them they are
modelled from the spec and documented as such.
-/

set_option maxRecDepth 4096

namespace PaddleBw

/-- Modelled from the spec: the fixed gradient suffix constant
`kGradVarSuffix` (declared in `operator.h`, which is not under `src/`);
the spec's examples write gradient names as `x@GRAD`. -/
def kGradVarSuffix : String := "@GRAD"

/-- Modelled from the spec: the reserved zero suffix constant
`kZeroVarSuffix` (declared in `operator.h`, not under `src/`); the spec's
zero-fill example writes the substitute variable as `y@ZERO`. -/
def kZeroVarSuffix : String := "@ZERO"

/-- Modelled from the spec: the reserved empty-variable sentinel
`kEmptyVarName` (declared in `operator.h`, not under `src/`), denoting
"no variable". -/
def kEmptyVarName : String := "@EMPTY@"

/-- Modelled from the spec: `GradVarName` (from `operator.h`, not under
`src/`): the gradient name of a variable is the variable name with the
gradient suffix appended. -/
def GradVarName (n : String) : String := n ++ kGradVarSuffix

/-- The input/output mapping of an operator: named slots, each holding an
ordered list of variable names (`std::map<std::string,
std::vector<std::string>>`, represented in its iteration order). -/
abbrev VarMap := List (String × List String)

/-- All variable names occurring in a mapping, in iteration order
(the traversal order of `ForEachVarName`). -/
def varNamesVM (m : VarMap) : List String := m.foldr (fun p acc => p.2 ++ acc) []

/-- An operator node: a primitive operator, or a composite `NetOp` holding
an ordered sequence of child operators.  Both carry a type tag and
input/output mappings (`type_`, `inputs_`, `outputs_`). -/
inductive Op : Type where
  | prim (ty : String) (inputs outputs : VarMap)
  | net (ty : String) (inputs outputs : VarMap) (ops : List Op)

/-- The type tag `type_` of an operator. -/
def Op.ty : Op → String
  | .prim t _ _ => t
  | .net t _ _ _ => t

/-- The input mapping `inputs_` of an operator. -/
def Op.inputs : Op → VarMap
  | .prim _ i _ => i
  | .net _ i _ _ => i

/-- The output mapping `outputs_` of an operator. -/
def Op.outputs : Op → VarMap
  | .prim _ _ o => o
  | .net _ _ o _ => o

/-- The predicate `IsNetOp`: true exactly for composite nodes. -/
def Op.IsNetOp : Op → Bool
  | .prim _ _ _ => false
  | .net _ _ _ _ => true

mutual
def Op.beq : Op → Op → Bool
  | .prim t i o, .prim t' i' o' => t == t' && i == i' && o == o'
  | .net t i o ops, .net t' i' o' ops' =>
    t == t' && i == i' && o == o' && Op.beqList ops ops'
  | _, _ => false
def Op.beqList : List Op → List Op → Bool
  | [], [] => true
  | a :: as, b :: bs => Op.beq a b && Op.beqList as bs
  | _, _ => false
end

mutual
def Op.beqIff : ∀ a b : Op, Op.beq a b = true ↔ a = b
  | .prim _ _ _, .prim _ _ _ => by simp [Op.beq, and_assoc]
  | .net _ _ _ ops, .net _ _ _ ops' => by
    simp [Op.beq, Op.beqListIff ops ops', and_assoc]
  | .prim _ _ _, .net _ _ _ _ => by simp [Op.beq]
  | .net _ _ _ _, .prim _ _ _ => by simp [Op.beq]
def Op.beqListIff : ∀ as bs : List Op, Op.beqList as bs = true ↔ as = bs
  | [], [] => by simp [Op.beqList]
  | a :: as, b :: bs => by
    simp [Op.beqList, Op.beqIff a b, Op.beqListIff as bs]
  | [], _ :: _ => by simp [Op.beqList]
  | _ :: _, [] => by simp [Op.beqList]
end

instance : DecidableEq Op := fun a b =>
  decidable_of_iff (Op.beq a b = true) (Op.beqIff a b)

/-- Substitute one variable name for another in a mapping (every occurrence
of `f` becomes `t`). -/
def renameVM (f t : String) (m : VarMap) : VarMap :=
  m.map (fun p => (p.1, p.2.map (fun n => if n = f then t else n)))

mutual
/-- Modelled from the spec: `OperatorBase::Rename` / `NetOp::Rename` (not
under `src/`): rewrites every occurrence of a variable name across a
node's and, for composites, its descendants' input/output mappings. -/
def Op.Rename (f t : String) : Op → Op
  | .prim ty i o => .prim ty (renameVM f t i) (renameVM f t o)
  | .net ty i o ops => .net ty (renameVM f t i) (renameVM f t o) (Op.renameList f t ops)

/-- Pointwise `Rename` over a sequence of operators. -/
def Op.renameList (f t : String) : List Op → List Op
  | [] => []
  | o :: os => Op.Rename f t o :: Op.renameList f t os
end

/-- Modelled from the spec: the input mapping a sealed composite exposes
after `NetOp::CompleteAddOp` (in `net_op.cc`, not under `src/`): the
deduplicated collection of the children's input variable names, under a
single slot. -/
def netInputs (ops : List Op) : VarMap :=
  [("all", (ops.foldr (fun o acc => varNamesVM o.inputs ++ acc) []).dedup)]

/-- Modelled from the spec: the output mapping a sealed composite exposes
after `NetOp::CompleteAddOp` (in `net_op.cc`, not under `src/`): the
deduplicated collection of the children's output variable names, under a
single slot. -/
def netOutputs (ops : List Op) : VarMap :=
  [("all", (ops.foldr (fun o acc => varNamesVM o.outputs ++ acc) []).dedup)]

/-- Build and seal a composite node with the given type tag and children
(`make_shared<NetOp>`; `AddOp` for each child; set `type_`;
`CompleteAddOp`). -/
def sealNet (ty : String) (ops : List Op) : Op :=
  .net ty (netInputs ops) (netOutputs ops) ops

/-- The function `NOP()` (lines 44-49): the sealed, empty composite tagged `@NOP@`. -/
def NOP : Op := sealNet "@NOP@" []

/-- Function `AllInSet` (lines 33-42): true iff every variable name of the mapping, with the
suffix appended, is a member of the set. -/
def AllInSet (names : VarMap) (suffix : String) (set : List String) : Bool :=
  names.all (fun p => p.2.all (fun n => set.contains (n ++ suffix)))

/-- Insertion into the no-gradient set (`std::unordered_set::insert`):
membership-preserving, adds the name when absent. -/
def insertNG (n : String) (s : List String) : List String :=
  if s.contains n then s else n :: s

/-- Lines 80-84: for every forward input variable name, insert its gradient
name into the no-gradient set. -/
def insertGrads (m : VarMap) (s : List String) : List String :=
  m.foldl (fun acc p => p.2.foldl (fun a n => insertNG (GradVarName n) a) acc) s

/-- Semantics of `std::string::substr(0, count)`: the first `count` characters,
clamped to the string's length. -/
def strTake (s : String) (count : Nat) : String := ⟨s.data.take count⟩

/-- The count argument of the `substr` call on line 147:
`size - sizeof(kGradVarSuffix)/sizeof(char) + 1` evaluated in `size_t`
arithmetic (`sizeof("@GRAD") = 6`, the `+1` compensating the trailing
`NUL`), i.e. `size - 5` modulo `2 ^ 64`. -/
def destemCount (size : Nat) : Nat :=
  ((size + (2 ^ 64 - 6)) % 2 ^ 64 + 1) % 2 ^ 64

/-- Lines 146-148: the prefix obtained by stripping the gradient suffix
from a gradient variable name (with the `size_t` underflow and `substr`
clamping of the source when the name is shorter than the suffix). -/
def destem (s : String) : String := strTake s (destemCount s.data.length)

/-- The `fill_zeros_like` auxiliary operator created on lines 153-154:
source `Src` is the destemmed forward variable, destination `Dst` the
zero-suffixed substitute. -/
def fillZerosLike (pre : String) : Op :=
  .prim "fill_zeros_like" [("Src", [pre])] [("Dst", [pre ++ kZeroVarSuffix])]

/-- Lines 143-157, inner traversal of one slot's name list: rewrite each
gradient-input name that is in the no-gradient set to its zero substitute,
collecting the `fill_zeros_like` operators in scan order. -/
def processNames (s : List String) : List String → List String × List Op
  | [] => ([], [])
  | n :: ns =>
    let rest := processNames s ns
    if s.contains n then
      ((destem n ++ kZeroVarSuffix) :: rest.1, fillZerosLike (destem n) :: rest.2)
    else (n :: rest.1, rest.2)

/-- Lines 143-157: the `ForEachVarName` pass over the gradient operator's
input mapping: the rewritten mapping together with the `fill_zeros_like`
operators added to the wrapper net, in scan order. -/
def processGradInputs (s : List String) : VarMap → VarMap × List Op
  | [] => ([], [])
  | p :: rest =>
    let here := processNames s p.2
    let r := processGradInputs s rest
    ((p.1, here.1) :: r.1, here.2 ++ r.2)

/-- Lines 159-165: replace every gradient-output name that is in the
no-gradient set by the empty-variable sentinel. -/
def sentinelOutputs (s : List String) (m : VarMap) : VarMap :=
  m.map (fun p => (p.1, p.2.map (fun n => if s.contains n then kEmptyVarName else n)))

/-- Overwrite an operator's top-level input/output mappings (the in-place
mutation of `grad_op->inputs_` / `grad_op->outputs_`; children of a
composite gradient operator are not descended into). -/
def Op.setMaps (i o : VarMap) : Op → Op
  | .prim ty _ _ => .prim ty i o
  | .net ty _ _ ops => .net ty i o ops

/-- One `dup_output_ops[out].emplace_back(local_op_id)` step on the
duplicate-producer index (modelled as an association list in first-insertion
key order; the source uses an `unordered_map`, whose iteration order is
implementation-defined). -/
def addDup (n : String) (id : Nat) : List (String × List Nat) → List (String × List Nat)
  | [] => [(n, [id])]
  | e :: rest => if e.1 = n then (e.1, e.2 ++ [id]) :: rest else e :: addDup n id rest

/-- Lines 99-111 (recording part): the duplicate-producer index of a
backward child sequence: for every output variable name, the positions of
the children producing it, in producer order. -/
def dupOutputOps (ops : List Op) : List (String × List Nat) :=
  (ops.foldl
    (fun acc op =>
      ((varNamesVM op.outputs).foldl (fun m n => addDup n acc.2 m) acc.1, acc.2 + 1))
    ([], 0)).1

/-- Line 125: the disambiguated rename `name@RENAME@<uid>@<i>`. -/
def renName (n : String) (uid i : Nat) : String :=
  n ++ "@RENAME@" ++ toString uid ++ "@" ++ toString i

/-- Lines 130-131: the aggregation operator `add` reading the disambiguated
names and writing the shared name. -/
def mkAdd (dupOutputs : List String) (n : String) : Op :=
  .prim "add" [("X", dupOutputs)] [("Out", [n])]

/-- Apply a function to the operator at one position of the child sequence
(`net->ops_[op_offset]` update; positions past the end are untouched). -/
def modifyOp (f : Op → Op) (i : Nat) (l : List Op) : List Op :=
  match l.get? i with
  | some o => l.set i (f o)
  | none => l

/-- Lines 123-128 for one duplicated name: sequentially rename the producer
at position `ids[k]` so it writes `name@RENAME@<uid>@<i0+k>` instead of
`name`. -/
def renameEntryAux (uid : Nat) (n : String) : Nat → List Nat → List Op → List Op
  | _, [], net => net
  | i, id :: ids, net =>
    renameEntryAux uid n (i + 1) ids
      (modifyOp (Op.Rename n (renName n uid i)) id net)

/-- Lines 117-132: the loop over the duplicate-producer index: skip
singly-produced names; for each multiply-produced name apply the renames to
the producing children and append the pending aggregation operator
(recorded with the last producer's position). -/
def processDups (uid : Nat) :
    List (String × List Nat) → List Op → List (Nat × Op) → List Op × List (Nat × Op)
  | [], net, pend => (net, pend)
  | e :: rest, net, pend =>
    if e.2.length = 1 then processDups uid rest net pend
    else
      processDups uid rest (renameEntryAux uid e.1 0 e.2 net)
        (pend ++ [(e.2.getLastD 0, mkAdd ((List.range e.2.length).map (renName e.1 uid)) e.1)])

/-- One insertion step of the stable descending sort of lines 134-135
(`std::list::sort` with comparator `l.first > r.first`). -/
def insertDesc (x : Nat × Op) : List (Nat × Op) → List (Nat × Op)
  | [] => [x]
  | y :: ys => if y.1 < x.1 then x :: y :: ys else y :: insertDesc x ys

/-- Lines 134-135: sort the pending insertions by target position,
descending, stably. -/
def sortPendDesc (l : List (Nat × Op)) : List (Nat × Op) :=
  l.foldl (fun acc x => insertDesc x acc) []

/-- Method `NetOp::InsertOp(pos, op)`: insert an operator before position `pos`
of the child sequence. -/
def insertAt (i : Nat) (x : Op) (l : List Op) : List Op :=
  l.take i ++ x :: l.drop i

/-- Lines 134-139: apply the pending aggregation insertions, each
immediately after its recorded position, in descending position order. -/
def insertAggs (pend : List (Nat × Op)) (net : List Op) : List Op :=
  (sortPendDesc pend).foldl (fun l p => insertAt (p.1 + 1) p.2 l) net

mutual
/-- Function `BackwardRecursive` (lines 66-175) together with its child-sequence
traversal loop (lines 101-111), as one mutually recursive pair.  The
operator registry collaborator `OpRegistry::CreateGradOp` is a parameter
`reg`; `none` models its fatal "no gradient operator registered" error.
The no-gradient set and the unique-id counter are threaded explicitly. -/
def BackwardRecursive (reg : Op → Option Op) :
    Op → List String → Nat → Option (Op × List String × Nat)
  | fwd, s, u =>
    if AllInSet fwd.inputs kGradVarSuffix s then some (NOP, s, u)
    else if AllInSet fwd.outputs kGradVarSuffix s then
      some (NOP, insertGrads fwd.inputs s, u)
    else
      match fwd with
      | .net _ _ _ cs =>
        match BackwardList reg cs s u with
        | none => none
        | some (bwds, s1, u1) =>
          let pd := processDups u1 (dupOutputOps bwds) bwds []
          some (sealNet "@GENERATED_BACKWARD@" (insertAggs pd.2 pd.1), s1, u1 + 1)
      | .prim ty ins outs =>
        match reg (.prim ty ins outs) with
        | none => none
        | some g =>
          let pr := processGradInputs s g.inputs
          let g2 := g.setMaps pr.1 (sentinelOutputs s g.outputs)
          if pr.2.isEmpty then some (g2, s, u)
          else some (sealNet "@GENERATED_BACKWARD@" (pr.2 ++ [g2]), s, u)
def BackwardList (reg : Op → Option Op) :
    List Op → List String → Nat → Option (List Op × List String × Nat)
  | [], s, u => some ([], s, u)
  | f :: rest, s, u =>
    match BackwardList reg rest s u with
    | none => none
    | some (bs, s1, u1) =>
      match BackwardRecursive reg f s1 u1 with
      | none => none
      | some (b, s2, u2) => some (bs ++ [b], s2, u2)
end

/-- Entry point `Backward` (lines 178-191): seed the no-gradient set with the gradient
names of the empty-variable sentinel and of every caller-supplied
no-gradient variable, start the counter at zero, and run the recursive
builder, returning the backward graph. -/
def Backward (reg : Op → Option Op) (fwd : Op) (noGradVars : List String) : Option Op :=
  let s0 := noGradVars.foldl (fun a n => insertNG (n ++ kGradVarSuffix) a)
    (insertNG (kEmptyVarName ++ kGradVarSuffix) [])
  match BackwardRecursive reg fwd s0 0 with
  | none => none
  | some r => some r.1

/-! ### Concrete operators and registries used by witnesses and counterexamples

The registries below model `OpRegistry::CreateGradOp` for small hand-built
forward graphs: each maps a forward primitive to its gradient primitive and
rejects everything else. -/

/-- The forward primitive `mul(X, Y) -> Out` of the spec's concrete
scenario. -/
def mulOp : Op := .prim "mul" [("X", ["X"]), ("Y", ["Y"])] [("Out", ["Out"])]

/-- The gradient primitive `mul_grad` with inputs `Out@GRAD, X, Y` and
outputs `X@GRAD, Y@GRAD`. -/
def mulGradOp : Op :=
  .prim "mul_grad" [("Out@GRAD", ["Out@GRAD"]), ("X", ["X"]), ("Y", ["Y"])]
    [("X@GRAD", ["X@GRAD"]), ("Y@GRAD", ["Y@GRAD"])]

/-- A registry knowing only `mul`. -/
def mulReg : Op → Option Op := fun o => if o = mulOp then some mulGradOp else none

/-- Forward primitive `f(A) -> B` of the spec's two-consumer scenario. -/
def fOp : Op := .prim "f" [("I", ["A"])] [("O", ["B"])]

/-- Forward primitive `g(A) -> C` of the spec's two-consumer scenario. -/
def gOp : Op := .prim "g" [("I", ["A"])] [("O", ["C"])]

/-- Gradient primitive of `fOp`, producing `A@GRAD`. -/
def fGradOp : Op := .prim "f_grad" [("I", ["B@GRAD"])] [("O", ["A@GRAD"])]

/-- Gradient primitive of `gOp`, producing `A@GRAD`. -/
def gGradOp : Op := .prim "g_grad" [("I", ["C@GRAD"])] [("O", ["A@GRAD"])]

/-- A registry for the two-consumer scenario. -/
def fgReg : Op → Option Op := fun o =>
  if o = fOp then some fGradOp else if o = gOp then some gGradOp else none

/-- The forward composite of the two-consumer scenario: children `f(A)->B`
and `g(A)->C`, both consuming `A`. -/
def fgNet : Op := .net "plain_net" [("all", ["A"])] [("all", ["B", "C"])] [fOp, gOp]

/-- Forward primitive whose backward child produces the single gradient
name `a`; used in the shared-last-producer scenario. -/
def tieP0 : Op := .prim "p0" [("I", ["x0"])] [("O", ["y0"])]

/-- Forward primitive whose backward child produces the single gradient
name `b`; used in the shared-last-producer scenario. -/
def tieP1 : Op := .prim "p1" [("I", ["x1"])] [("O", ["y1"])]

/-- Forward primitive whose backward child produces both `a` and `b`; used
in the shared-last-producer scenario. -/
def tieP2 : Op := .prim "p2" [("I", ["x2"])] [("O", ["y2"])]

/-- Gradient of `tieP0`: one producer of `a`. -/
def tieQ0 : Op := .prim "q0" [("I", ["i0@GRAD"])] [("O", ["a"])]

/-- Gradient of `tieP1`: one producer of `b`. -/
def tieQ1 : Op := .prim "q1" [("I", ["i1@GRAD"])] [("O", ["b"])]

/-- Gradient of `tieP2`: the shared last producer of both `a` and `b`. -/
def tieQ2 : Op := .prim "q2" [("I", ["i2@GRAD"])] [("O", ["a", "b"])]

/-- A registry for the shared-last-producer scenario. -/
def tieReg : Op → Option Op := fun o =>
  if o = tieP0 then some tieQ0
  else if o = tieP1 then some tieQ1
  else if o = tieP2 then some tieQ2 else none

/-- The forward composite of the shared-last-producer scenario.  Children
are listed in forward order, so the reverse traversal visits `tieP0`,
`tieP1`, `tieP2`, and the backward children produce `a`, `b`, and `a, b`
at local positions `0`, `1`, `2`. -/
def tieNet : Op := .net "plain_net" [("all", ["w"])] [("all", ["z"])] [tieP2, tieP1, tieP0]

/-- A forward primitive whose gradient operator reads the variable `g`,
which is shorter than the gradient suffix. -/
def shortFwd : Op := .prim "sf" [("I", ["x"])] [("O", ["y"])]

/-- The gradient primitive of `shortFwd`, with the short input name `g`. -/
def shortGradOp : Op := .prim "sf_grad" [("I", ["g"])] [("O", ["x@GRAD"])]

/-- A registry for the short-name scenario. -/
def shortReg : Op → Option Op := fun o => if o = shortFwd then some shortGradOp else none

/-- A forward primitive `h(x) -> y` used in the zero-fill scenario. -/
def zfFwd : Op := .prim "h" [("I", ["x"])] [("O", ["y", "z"])]

/-- The gradient primitive of `zfFwd`, reading `y@GRAD` and writing
`x@GRAD`. -/
def zfGradOp : Op := .prim "h_grad" [("I", ["y@GRAD", "z@GRAD"])] [("O", ["x@GRAD"])]

/-- A registry for the zero-fill scenario. -/
def zfReg : Op → Option Op := fun o => if o = zfFwd then some zfGradOp else none



/-! ### Derived views of the builder's intermediate data

These definitions name intermediate stages of the composite branch and the
relations used by the statements below; they introduce no behaviour of
their own. -/

/-- The pending aggregation insertions produced by the loop of lines
117-132 for a duplicate-producer index: one `add` per multiply-produced
name, recorded with the last producer's position. -/
def pendingOf (uid : Nat) (d : List (String × List Nat)) : List (Nat × Op) :=
  d.filterMap (fun e =>
    if e.2.length = 1 then none
    else some (e.2.getLastD 0, mkAdd ((List.range e.2.length).map (renName e.1 uid)) e.1))

/-- The renaming effect of the loop of lines 117-132 on the backward child
sequence: the per-entry renames applied in index order. -/
def foldRename (uid : Nat) (d : List (String × List Nat)) (net : List Op) : List Op :=
  d.foldl (fun net e => if e.2.length = 1 then net else renameEntryAux uid e.1 0 e.2 net) net

/-- The number of pending insertions whose recorded position is below `k`. -/
def countLtPend (pend : List (Nat × Op)) (k : Nat) : Nat :=
  (pend.filter (fun q => decide (q.1 < k))).length

/-- The invariant carried through the `dup_output_ops` accumulation: keys
are distinct, and every recorded position is a strictly earlier child whose
outputs contain the key. -/
def DupInv (gops : List Op) (m : List (String × List Nat)) (k : Nat) : Prop :=
  (m.map Prod.fst).Nodup ∧
  ∀ e ∈ m, e.2 ≠ [] ∧ e.2.Pairwise (· ≤ ·) ∧
    ∀ j ∈ e.2, j < k ∧ ∃ op, gops[j]? = some op ∧ e.1 ∈ varNamesVM op.outputs

/-- The same invariant with the non-strict bound used while one child's
outputs are still being scanned. -/
def DupInvLe (gops : List Op) (m : List (String × List Nat)) (k : Nat) : Prop :=
  (m.map Prod.fst).Nodup ∧
  ∀ e ∈ m, e.2 ≠ [] ∧ e.2.Pairwise (· ≤ ·) ∧
    ∀ j ∈ e.2, j ≤ k ∧ ∃ op, gops[j]? = some op ∧ e.1 ∈ varNamesVM op.outputs

/-- Two lists seen as sets of names: same membership. -/
def SetEquiv (s t : List String) : Prop := ∀ x : String, x ∈ s ↔ x ∈ t

/-- Results of `BackwardRecursive` agree up to membership of the returned
no-gradient set: same failure, or same operator, same counter, and
membership-equal sets. -/
def ResEquiv : Option (Op × List String × Nat) → Option (Op × List String × Nat) → Prop
  | none, none => True
  | some (r, s, u), some (r2, t, u2) => r = r2 ∧ u = u2 ∧ SetEquiv s t
  | _, _ => False

/-- Results of `BackwardList` agree up to membership of the returned
no-gradient set. -/
def ResEquivList :
    Option (List Op × List String × Nat) → Option (List Op × List String × Nat) → Prop
  | none, none => True
  | some (r, s, u), some (r2, t, u2) => r = r2 ∧ u = u2 ∧ SetEquiv s t
  | _, _ => False

/-! ### Basic lemmas about the no-gradient set and the membership test -/

theorem contains_iff (l : List String) (a : String) : l.contains a = true ↔ a ∈ l := by
  simp

theorem mem_insertNG_self (n : String) (s : List String) : n ∈ insertNG n s := by
  unfold insertNG
  split
  · exact (contains_iff s n).mp (by assumption)
  · exact List.mem_cons_self n s

theorem mem_insertNG_of_mem {x : String} {s : List String} (n : String) (h : x ∈ s) :
    x ∈ insertNG n s := by
  unfold insertNG
  split
  · exact h
  · exact List.mem_cons_of_mem n h

theorem mem_foldl_insertNG_of_mem {x : String} {a : List String}
    (f : String → String) (ns : List String) (h : x ∈ a) :
    x ∈ ns.foldl (fun a n => insertNG (f n) a) a := by
  induction ns generalizing a with
  | nil => simpa using h
  | cons n ns ih => exact ih (mem_insertNG_of_mem _ h)

theorem mem_foldl_insertNG_self {a : List String} {n : String}
    (f : String → String) (ns : List String) (h : n ∈ ns) :
    f n ∈ ns.foldl (fun a n => insertNG (f n) a) a := by
  induction ns generalizing a with
  | nil => cases h
  | cons m ns ih =>
    rcases List.mem_cons.mp h with rfl | h
    · exact mem_foldl_insertNG_of_mem f ns (mem_insertNG_self _ _)
    · exact ih h

theorem insertGrads_cons (p : String × List String) (rest : VarMap) (s : List String) :
    insertGrads (p :: rest) s =
      insertGrads rest (p.2.foldl (fun a n => insertNG (GradVarName n) a) s) := rfl

theorem mem_insertGrads_of_mem {x : String} {s : List String} (m : VarMap) (h : x ∈ s) :
    x ∈ insertGrads m s := by
  induction m generalizing s with
  | nil => simpa [insertGrads] using h
  | cons p rest ih =>
    rw [insertGrads_cons]
    exact ih (mem_foldl_insertNG_of_mem _ _ h)

theorem mem_varNamesVM {n : String} {m : VarMap} :
    n ∈ varNamesVM m ↔ ∃ p ∈ m, n ∈ p.2 := by
  unfold varNamesVM
  induction m with
  | nil => simp
  | cons p rest ih => simp [ih]

theorem grad_mem_insertGrads {n : String} {s : List String} {m : VarMap}
    (h : n ∈ varNamesVM m) : GradVarName n ∈ insertGrads m s := by
  induction m generalizing s with
  | nil => simp [varNamesVM] at h
  | cons p rest ih =>
    rw [insertGrads_cons]
    rcases List.mem_append.mp (by simpa [varNamesVM] using h) with hp | hr
    · exact mem_insertGrads_of_mem rest (mem_foldl_insertNG_self _ _ hp)
    · exact ih hr

theorem AllInSet_of_no_names {m : VarMap} (suffix : String) (s : List String)
    (h : varNamesVM m = []) : AllInSet m suffix s = true := by
  unfold AllInSet
  rw [List.all_eq_true]
  intro p hp
  rw [List.all_eq_true]
  intro n hn
  exact absurd (mem_varNamesVM.mpr ⟨p, hp, hn⟩) (by simp [h])

/-! ### Claims about the two early-return guard rules -/

theorem backward_nop_of_inputs_in_set (reg : Op → Option Op) (fwd : Op)
    (s : List String) (u : Nat)
    (h : AllInSet fwd.inputs kGradVarSuffix s = true) :
    BackwardRecursive reg fwd s u = some (NOP, s, u) := by
  rw [BackwardRecursive.eq_def]
  simp [h]

/-- C2: for every forward operator whose input variable names, each with the
gradient suffix appended, are all already members of the no-gradient set,
the builder returns the no-op placeholder immediately, with the set and the
counter untouched, for every registry and regardless of the node's internal
structure. -/
theorem claim_C2 (reg : Op → Option Op) (fwd : Op) (s : List String) (u : Nat)
    (h : AllInSet fwd.inputs kGradVarSuffix s = true) :
    BackwardRecursive reg fwd s u = some (NOP, s, u) :=
  backward_nop_of_inputs_in_set reg fwd s u h

theorem claim_C2_witness :
    AllInSet (Op.prim "w" [("X", ["a"])] [("O", ["b"])]).inputs kGradVarSuffix
        ["a@GRAD"] = true ∧
      BackwardRecursive (fun _ => none) (Op.prim "w" [("X", ["a"])] [("O", ["b"])])
        ["a@GRAD"] 0 = some (NOP, ["a@GRAD"], 0) :=
  ⟨by decide, claim_C2 (fun _ => none) _ _ 0 (by decide)⟩

/-- C3: for every forward operator for which not all inputs but all outputs
(with the gradient suffix appended) are in the no-gradient set, the builder
adds the gradient name of every forward input variable to the shared
no-gradient set (the returned set) and returns the no-op placeholder. -/
theorem claim_C3 (reg : Op → Option Op) (fwd : Op) (s : List String) (u : Nat)
    (hin : AllInSet fwd.inputs kGradVarSuffix s = false)
    (hout : AllInSet fwd.outputs kGradVarSuffix s = true) :
    BackwardRecursive reg fwd s u = some (NOP, insertGrads fwd.inputs s, u) ∧
      ∀ n ∈ varNamesVM fwd.inputs, GradVarName n ∈ insertGrads fwd.inputs s := by
  constructor
  · rw [BackwardRecursive.eq_def]
    simp [hin, hout]
  · exact fun n hn => grad_mem_insertGrads hn

theorem claim_C3_witness :
    BackwardRecursive (fun _ => none) (Op.prim "w" [("X", ["a"])] [("O", ["b"])])
        ["b@GRAD"] 0 =
      some (NOP,
        insertGrads (Op.prim "w" [("X", ["a"])] [("O", ["b"])]).inputs ["b@GRAD"], 0) ∧
      GradVarName "a" ∈
        insertGrads (Op.prim "w" [("X", ["a"])] [("O", ["b"])]).inputs ["b@GRAD"] :=
  ⟨(claim_C3 (fun _ => none) _ _ 0 (by decide) (by decide)).1,
    (claim_C3 (fun _ => none) _ _ 0 (by decide) (by decide)).2 "a" (by decide)⟩

/-- C10: for every forward operator whose input mapping contains no variable
names at all, the all-in-set membership test is vacuously true, so the
builder returns the no-op placeholder regardless of the contents of the
no-gradient set. -/
theorem claim_C10 (reg : Op → Option Op) (fwd : Op) (s : List String) (u : Nat)
    (h : varNamesVM fwd.inputs = []) :
    AllInSet fwd.inputs kGradVarSuffix s = true ∧
      BackwardRecursive reg fwd s u = some (NOP, s, u) := by
  refine ⟨AllInSet_of_no_names _ _ h, ?_⟩
  exact backward_nop_of_inputs_in_set reg fwd s u (AllInSet_of_no_names _ _ h)

theorem claim_C10_witness :
    varNamesVM (Op.prim "w" [("X", []), ("Y", [])] [("O", ["b"])]).inputs = [] ∧
      AllInSet (Op.prim "w" [("X", []), ("Y", [])] [("O", ["b"])]).inputs
        kGradVarSuffix [] = true ∧
      BackwardRecursive (fun _ => none) (Op.prim "w" [("X", []), ("Y", [])] [("O", ["b"])])
        [] 5 = some (NOP, [], 5) :=
  ⟨by decide, claim_C10 (fun _ => none) _ [] 5 (by decide)⟩

/-! ### The primitive branch: zero-fill substitution lemmas -/

theorem processNames_fst (s : List String) (ns : List String) :
    (processNames s ns).1 =
      ns.map (fun n => if s.contains n then destem n ++ kZeroVarSuffix else n) := by
  induction ns with
  | nil => simp [processNames]
  | cons n ns ih =>
    by_cases h : n ∈ s <;> simp [processNames, h, ih]

theorem processNames_snd (s : List String) (ns : List String) :
    (processNames s ns).2 =
      (ns.filter (fun n => s.contains n)).map (fun n => fillZerosLike (destem n)) := by
  induction ns with
  | nil => simp [processNames]
  | cons n ns ih =>
    by_cases h : n ∈ s <;> simp [processNames, h, ih]

theorem processGradInputs_fst (s : List String) (m : VarMap) :
    (processGradInputs s m).1 =
      m.map (fun p =>
        (p.1, p.2.map (fun n => if s.contains n then destem n ++ kZeroVarSuffix else n))) := by
  induction m with
  | nil => simp [processGradInputs]
  | cons p rest ih => simp [processGradInputs, processNames_fst, ih]

theorem processGradInputs_snd (s : List String) (m : VarMap) :
    (processGradInputs s m).2 =
      ((varNamesVM m).filter (fun n => s.contains n)).map
        (fun n => fillZerosLike (destem n)) := by
  induction m with
  | nil => simp [processGradInputs, varNamesVM]
  | cons p rest ih => simp [processGradInputs, processNames_snd, ih, varNamesVM]

theorem processNames_id {s : List String} {ns : List String}
    (hno : ∀ n ∈ ns, s.contains n = false) : processNames s ns = (ns, []) := by
  induction ns with
  | nil => rfl
  | cons n ns ih =>
    have hn := hno n (List.mem_cons_self n ns)
    have hn' : n ∉ s := fun hm => by
      have hc := (contains_iff s n).mpr hm
      rw [hn] at hc
      exact Bool.noConfusion hc
    have hrest := fun x hx => hno x (List.mem_cons_of_mem n hx)
    simp [processNames, hn, hn', ih hrest]

theorem processGradInputs_id {s : List String} {m : VarMap}
    (hno : ∀ n ∈ varNamesVM m, s.contains n = false) : processGradInputs s m = (m, []) := by
  induction m with
  | nil => rfl
  | cons p rest ih =>
    have h1 : ∀ n ∈ p.2, s.contains n = false := fun n hn =>
      hno n (mem_varNamesVM.mpr ⟨p, List.mem_cons_self p rest, hn⟩)
    have h2 : ∀ n ∈ varNamesVM rest, s.contains n = false := fun n hn => by
      rcases mem_varNamesVM.mp hn with ⟨q, hq, hn2⟩
      exact hno n (mem_varNamesVM.mpr ⟨q, List.mem_cons_of_mem p hq, hn2⟩)
    simp [processGradInputs, processNames_id h1, ih h2]

theorem fill_mem_processGradInputs {s : List String} {m : VarMap} {n : String}
    (hmem : n ∈ varNamesVM m) (hc : s.contains n = true) :
    fillZerosLike (destem n) ∈ (processGradInputs s m).2 := by
  rw [processGradInputs_snd]
  exact List.mem_map_of_mem _ (List.mem_filter.mpr ⟨hmem, hc⟩)

theorem backward_prim_reg (reg : Op → Option Op) (ty : String) (ins outs : VarMap)
    (s : List String) (u : Nat) (g : Op)
    (hin : AllInSet ins kGradVarSuffix s = false)
    (hout : AllInSet outs kGradVarSuffix s = false)
    (hreg : reg (Op.prim ty ins outs) = some g) :
    BackwardRecursive reg (Op.prim ty ins outs) s u =
      (if (processGradInputs s g.inputs).2.isEmpty then
        some (g.setMaps (processGradInputs s g.inputs).1 (sentinelOutputs s g.outputs), s, u)
      else
        some (sealNet "@GENERATED_BACKWARD@"
          ((processGradInputs s g.inputs).2 ++
            [g.setMaps (processGradInputs s g.inputs).1 (sentinelOutputs s g.outputs)]),
          s, u)) := by
  rw [BackwardRecursive.eq_def]
  simp [Op.inputs, Op.outputs, hin, hout, hreg]

/-- C4: for every forward primitive that reaches the gradient-operator
branch, if the gradient operator has an input variable name in the
no-gradient set, the builder wraps the gradient primitive: each such input
is rewritten to its destemmed name with the zero suffix appended, and a
`fill_zeros_like` operator from the destemmed forward variable to the
zero-suffixed name appears in the auxiliary operators placed before the
gradient primitive. -/
theorem claim_C4 (reg : Op → Option Op) (ty : String) (ins outs : VarMap)
    (s : List String) (u : Nat) (g : Op) (n : String)
    (hin : AllInSet ins kGradVarSuffix s = false)
    (hout : AllInSet outs kGradVarSuffix s = false)
    (hreg : reg (Op.prim ty ins outs) = some g)
    (hmem : n ∈ varNamesVM g.inputs) (hc : s.contains n = true) :
    BackwardRecursive reg (Op.prim ty ins outs) s u =
      some (sealNet "@GENERATED_BACKWARD@"
        ((processGradInputs s g.inputs).2 ++
          [g.setMaps (processGradInputs s g.inputs).1 (sentinelOutputs s g.outputs)]),
        s, u) ∧
    fillZerosLike (destem n) ∈ (processGradInputs s g.inputs).2 ∧
    (processGradInputs s g.inputs).1 =
      g.inputs.map (fun p =>
        (p.1, p.2.map (fun x => if s.contains x then destem x ++ kZeroVarSuffix else x))) ∧
    fillZerosLike (destem n) =
      Op.prim "fill_zeros_like" [("Src", [destem n])]
        [("Dst", [destem n ++ kZeroVarSuffix])] := by
  have hfill := fill_mem_processGradInputs hmem hc
  have hne : (processGradInputs s g.inputs).2.isEmpty = false := by
    simp [List.isEmpty_eq_false]
    exact List.ne_nil_of_mem hfill
  refine ⟨?_, hfill, processGradInputs_fst s g.inputs, rfl⟩
  rw [backward_prim_reg reg ty ins outs s u g hin hout hreg]
  simp [hne]

theorem claim_C4_witness :
    BackwardRecursive zfReg zfFwd ["y@GRAD"] 0 =
      some (sealNet "@GENERATED_BACKWARD@"
        ((processGradInputs ["y@GRAD"] zfGradOp.inputs).2 ++
          [zfGradOp.setMaps (processGradInputs ["y@GRAD"] zfGradOp.inputs).1
            (sentinelOutputs ["y@GRAD"] zfGradOp.outputs)]),
        ["y@GRAD"], 0) ∧
    fillZerosLike (destem "y@GRAD") ∈ (processGradInputs ["y@GRAD"] zfGradOp.inputs).2 :=
  ⟨(claim_C4 zfReg "h" [("I", ["x"])] [("O", ["y", "z"])] ["y@GRAD"] 0 zfGradOp "y@GRAD"
      (by decide) (by decide) (by decide) (by decide) (by decide)).1,
    (claim_C4 zfReg "h" [("I", ["x"])] [("O", ["y", "z"])] ["y@GRAD"] 0 zfGradOp "y@GRAD"
      (by decide) (by decide) (by decide) (by decide) (by decide)).2.1⟩

theorem setMaps_IsNetOp (g : Op) (i o : VarMap) :
    (g.setMaps i o).IsNetOp = g.IsNetOp := by
  cases g <;> rfl

/-- C5: for every forward primitive that reaches the gradient-operator
branch and whose gradient operator has no input in the no-gradient set,
the builder returns the gradient primitive directly (inputs untouched,
outputs with the sentinel substitution), not wrapped in a composite; and in
the concrete `mul(X, Y) -> Out` scenario with no no-gradient variables the
whole build returns exactly the `mul_grad` primitive. -/
theorem claim_C5 (reg : Op → Option Op) (ty : String) (ins outs : VarMap)
    (s : List String) (u : Nat) (g : Op)
    (hin : AllInSet ins kGradVarSuffix s = false)
    (hout : AllInSet outs kGradVarSuffix s = false)
    (hreg : reg (Op.prim ty ins outs) = some g)
    (hno : ∀ n ∈ varNamesVM g.inputs, s.contains n = false) :
    BackwardRecursive reg (Op.prim ty ins outs) s u =
      some (g.setMaps g.inputs (sentinelOutputs s g.outputs), s, u) ∧
    (g.setMaps g.inputs (sentinelOutputs s g.outputs)).IsNetOp = g.IsNetOp ∧
    Backward mulReg mulOp [] = some mulGradOp := by
  refine ⟨?_, setMaps_IsNetOp g _ _, by decide⟩
  rw [backward_prim_reg reg ty ins outs s u g hin hout hreg]
  rw [processGradInputs_id hno]
  rfl

theorem claim_C5_witness :
    BackwardRecursive mulReg mulOp ["@EMPTY@@GRAD"] 0 =
      some (mulGradOp.setMaps mulGradOp.inputs
        (sentinelOutputs ["@EMPTY@@GRAD"] mulGradOp.outputs), ["@EMPTY@@GRAD"], 0) ∧
    Backward mulReg mulOp [] = some mulGradOp :=
  ⟨(claim_C5 mulReg "mul" [("X", ["X"]), ("Y", ["Y"])] [("Out", ["Out"])]
      ["@EMPTY@@GRAD"] 0 mulGradOp (by decide) (by decide) (by decide) (by decide)).1,
    (claim_C5 mulReg "mul" [("X", ["X"]), ("Y", ["Y"])] [("Out", ["Out"])]
      ["@EMPTY@@GRAD"] 0 mulGradOp (by decide) (by decide) (by decide) (by decide)).2.2⟩

/-! ### Claim C8: short gradient names are not rejected -/

theorem destem_short {s : String} (h : s.data.length < kGradVarSuffix.data.length) :
    destem s = s := by
  obtain ⟨d⟩ := s
  have h5 : d.length < 5 := by
    simpa [kGradVarSuffix] using h
  have p64 : (2 : Nat) ^ 64 = 18446744073709551616 := by norm_num
  have hC : destemCount d.length = d.length + (2 ^ 64 - 5) := by
    unfold destemCount
    rw [p64]
    omega
  show strTake ⟨d⟩ (destemCount d.length) = ⟨d⟩
  rw [hC]
  show String.mk (d.take (d.length + (2 ^ 64 - 5))) = ⟨d⟩
  rw [List.take_of_length_le (by rw [p64]; omega)]

/-- C8 (amended): a gradient-operator input name that is in the no-gradient
set but shorter than the gradient suffix is not rejected: the builder
proceeds without error, the clamped substring leaves the whole name as the
prefix, and a zero-fill operator with that whole name as source is
emitted. -/
theorem claim_C8 (reg : Op → Option Op) (ty : String) (ins outs : VarMap)
    (s : List String) (u : Nat) (g : Op) (n : String)
    (hin : AllInSet ins kGradVarSuffix s = false)
    (hout : AllInSet outs kGradVarSuffix s = false)
    (hreg : reg (Op.prim ty ins outs) = some g)
    (hmem : n ∈ varNamesVM g.inputs) (hc : s.contains n = true)
    (hshort : n.data.length < kGradVarSuffix.data.length) :
    destem n = n ∧
    BackwardRecursive reg (Op.prim ty ins outs) s u ≠ none ∧
    fillZerosLike n ∈ (processGradInputs s g.inputs).2 := by
  have hd := destem_short hshort
  have hfill := fill_mem_processGradInputs hmem hc
  rw [hd] at hfill
  refine ⟨hd, ?_, hfill⟩
  rw [backward_prim_reg reg ty ins outs s u g hin hout hreg]
  by_cases he : (processGradInputs s g.inputs).2.isEmpty = true <;> simp [he]

theorem claim_C8_witness :
    destem "g" = "g" ∧
    BackwardRecursive shortReg shortFwd ["g"] 0 ≠ none ∧
    fillZerosLike "g" ∈ (processGradInputs ["g"] shortGradOp.inputs).2 :=
  claim_C8 shortReg "sf" [("I", ["x"])] [("O", ["y"])] ["g"] 0 shortGradOp "g"
    (by decide) (by decide) (by decide) (by decide) (by decide) (by decide)

/-- C8, the claim as stated, is false: with the short name `g` in the
no-gradient set as an input of the gradient operator, the builder does not
signal an error; it completes and silently emits
`fill_zeros_like(Src = g, Dst = g@ZERO)`, rewriting the input to
`g@ZERO`. -/
theorem claim_C8_counterexample :
    ("g" : String).data.length < kGradVarSuffix.data.length ∧
    (["g"] : List String).contains "g" = true ∧
    "g" ∈ varNamesVM shortGradOp.inputs ∧
    BackwardRecursive shortReg shortFwd ["g"] 0 ≠ none ∧
    BackwardRecursive shortReg shortFwd ["g"] 0 =
      some (sealNet "@GENERATED_BACKWARD@"
        [fillZerosLike "g",
          Op.prim "sf_grad" [("I", ["g@ZERO"])] [("O", ["x@GRAD"])]],
        ["g"], 0) := by
  refine ⟨by decide, by decide, by decide, by decide, by decide⟩

/-! ### Monotonicity of the no-gradient set (claim C7) -/

theorem BackwardList_nil (reg : Op → Option Op) (s : List String) (u : Nat) :
    BackwardList reg [] s u = some ([], s, u) := rfl

theorem BackwardList_cons (reg : Op → Option Op) (f : Op) (rest : List Op)
    (s : List String) (u : Nat) :
    BackwardList reg (f :: rest) s u =
      match BackwardList reg rest s u with
      | none => none
      | some (bs, s1, u1) =>
        match BackwardRecursive reg f s1 u1 with
        | none => none
        | some (b, s2, u2) => some (bs ++ [b], s2, u2) := rfl

theorem backward_net_eq (reg : Op → Option Op) (ty : String) (ins outs : VarMap)
    (cs : List Op) (s : List String) (u : Nat)
    (hin : AllInSet ins kGradVarSuffix s = false)
    (hout : AllInSet outs kGradVarSuffix s = false) :
    BackwardRecursive reg (Op.net ty ins outs cs) s u =
      match BackwardList reg cs s u with
      | none => none
      | some (bwds, s1, u1) =>
        some (sealNet "@GENERATED_BACKWARD@"
          (insertAggs (processDups u1 (dupOutputOps bwds) bwds []).2
            (processDups u1 (dupOutputOps bwds) bwds []).1),
          s1, u1 + 1) := by
  rw [BackwardRecursive.eq_def]
  simp [Op.inputs, Op.outputs, hin, hout]

theorem backward_mono (reg : Op → Option Op) :
    ∀ fwd s u r s' u', BackwardRecursive reg fwd s u = some (r, s', u') → ∀ x ∈ s, x ∈ s' := by
  refine BackwardRecursive.induct reg
    (fun fwd s u => ∀ r s' u', BackwardRecursive reg fwd s u = some (r, s', u') → ∀ x ∈ s, x ∈ s')
    (fun cs s u => ∀ bs s' u', BackwardList reg cs s u = some (bs, s', u') → ∀ x ∈ s, x ∈ s')
    ?_ ?_ ?_ ?_ ?_ ?_ ?_ ?_ ?_ ?_ ?_
  · intro fwd s u h r s' u' heq x hx
    rw [backward_nop_of_inputs_in_set reg fwd s u h] at heq
    cases heq
    exact hx
  · intro fwd s u h1 h2 r s' u' heq x hx
    rw [BackwardRecursive.eq_def] at heq
    simp [eq_false_of_ne_true h1, h2] at heq
    rw [← heq.2.1]
    exact mem_insertGrads_of_mem _ hx
  · intro s u ty ins outs cs hnone h1 h2 ih r s' u' heq x hx
    rw [backward_net_eq reg ty ins outs cs s u
      (eq_false_of_ne_true h1) (eq_false_of_ne_true h2)] at heq
    rw [hnone] at heq
    cases heq
  · intro s u ty ins outs cs bwds s1 u1 hsome h1 h2 ih r s' u' heq x hx
    rw [backward_net_eq reg ty ins outs cs s u
      (eq_false_of_ne_true h1) (eq_false_of_ne_true h2)] at heq
    rw [hsome] at heq
    simp at heq
    rw [← heq.2.1]
    exact ih bwds s1 u1 hsome x hx
  · intro s u ty ins outs hnone h1 h2 r s' u' heq x hx
    rw [BackwardRecursive.eq_def] at heq
    simp [eq_false_of_ne_true h1, eq_false_of_ne_true h2, hnone] at heq
  · intro s u ty ins outs g hreg pr hemp h1 h2 r s' u' heq x hx
    rw [backward_prim_reg reg ty ins outs s u g
      (eq_false_of_ne_true h1) (eq_false_of_ne_true h2) hreg] at heq
    simp [hemp] at heq
    rw [← heq.2.1]
    exact hx
  · intro s u ty ins outs g hreg pr hemp h1 h2 r s' u' heq x hx
    rw [backward_prim_reg reg ty ins outs s u g
      (eq_false_of_ne_true h1) (eq_false_of_ne_true h2) hreg] at heq
    simp [Bool.eq_false_iff.mpr hemp] at heq
    rw [← heq.2.1]
    exact hx
  · intro s u bs s' u' heq x hx
    rw [BackwardList_nil] at heq
    cases heq
    exact hx
  · intro f rest s u hnone ih bs s' u' heq x hx
    rw [BackwardList_cons, hnone] at heq
    cases heq
  · intro f rest s u bs1 s1 u1 hsome hrecnone ih ihf bs s' u' heq x hx
    rw [BackwardList_cons, hsome] at heq
    simp [hrecnone] at heq
  · intro f rest s u bs1 s1 u1 hsome b s2 u2 hrec ih ihf bs s' u' heq x hx
    rw [BackwardList_cons, hsome] at heq
    simp [hrec] at heq
    rw [← heq.2.1]
    exact ihf b s2 u2 hrec x (ih bs1 s1 u1 hsome x hx)


theorem backwardList_mono (reg : Op → Option Op) :
    ∀ cs s u bs s' u', BackwardList reg cs s u = some (bs, s', u') → ∀ x ∈ s, x ∈ s' := by
  intro cs
  induction cs with
  | nil =>
    intro s u bs s' u' heq x hx
    rw [BackwardList_nil] at heq
    cases heq
    exact hx
  | cons f rest ih =>
    intro s u bs s' u' heq x hx
    rw [BackwardList_cons] at heq
    cases hbl : BackwardList reg rest s u with
    | none => rw [hbl] at heq; cases heq
    | some tr =>
      obtain ⟨bs1, s1, u1⟩ := tr
      rw [hbl] at heq
      dsimp only at heq
      cases hrec : BackwardRecursive reg f s1 u1 with
      | none => rw [hrec] at heq; cases heq
      | some tr2 =>
        obtain ⟨b, s2, u2⟩ := tr2
        rw [hrec] at heq
        cases heq
        exact backward_mono reg f s1 u1 b _ _ hrec x (ih s u bs1 s1 u1 hbl x hx)

/-- C7: throughout one build, the no-gradient set only grows: whenever the
recursive builder returns, every member of the incoming set is a member of
the returned set; and in a composite's child traversal, each child is
invoked on the set produced by the previously processed siblings, so their
additions are visible to it. -/
theorem claim_C7 (reg : Op → Option Op) :
    (∀ fwd s u r s' u', BackwardRecursive reg fwd s u = some (r, s', u') →
      ∀ x ∈ s, x ∈ s') ∧
    (∀ f rest s u bs s' u', BackwardList reg (f :: rest) s u = some (bs, s', u') →
      ∃ bs1 s1 u1 b s2 u2,
        BackwardList reg rest s u = some (bs1, s1, u1) ∧
        (∀ x ∈ s, x ∈ s1) ∧
        BackwardRecursive reg f s1 u1 = some (b, s2, u2) ∧
        bs = bs1 ++ [b] ∧ s' = s2 ∧ u' = u2) := by
  refine ⟨backward_mono reg, ?_⟩
  intro f rest s u bs s' u' heq
  rw [BackwardList_cons] at heq
  cases hbl : BackwardList reg rest s u with
  | none => rw [hbl] at heq; cases heq
  | some tr =>
    obtain ⟨bs1, s1, u1⟩ := tr
    rw [hbl] at heq
    dsimp only at heq
    cases hrec : BackwardRecursive reg f s1 u1 with
    | none => rw [hrec] at heq; cases heq
    | some tr2 =>
      obtain ⟨b, s2, u2⟩ := tr2
      rw [hrec] at heq
      cases heq
      exact ⟨bs1, s1, u1, b, _, _, rfl,
        fun x hx => backwardList_mono reg rest s u bs1 s1 u1 hbl x hx, hrec, rfl, rfl, rfl⟩

theorem claim_C7_witness :
    "b@GRAD" ∈ (["a@GRAD", "b@GRAD"] : List String) :=
  (claim_C7 (fun _ => none)).1 (Op.prim "w" [("X", ["a"])] [("O", ["b"])]) ["b@GRAD"] 0
    NOP ["a@GRAD", "b@GRAD"] 0 (by decide) "b@GRAD" (by decide)

/-! ### Reverse traversal order (claim C6) -/

theorem backwardList_length (reg : Op → Option Op) :
    ∀ cs s u bs s' u', BackwardList reg cs s u = some (bs, s', u') → bs.length = cs.length := by
  intro cs
  induction cs with
  | nil =>
    intro s u bs s' u' heq
    rw [BackwardList_nil] at heq
    cases heq
    rfl
  | cons f rest ih =>
    intro s u bs s' u' heq
    rw [BackwardList_cons] at heq
    cases hbl : BackwardList reg rest s u with
    | none => rw [hbl] at heq; cases heq
    | some tr =>
      obtain ⟨bs1, s1, u1⟩ := tr
      rw [hbl] at heq
      dsimp only at heq
      cases hrec : BackwardRecursive reg f s1 u1 with
      | none => rw [hrec] at heq; cases heq
      | some tr2 =>
        obtain ⟨b, s2, u2⟩ := tr2
        rw [hrec] at heq
        cases heq
        simp [ih s u bs1 s1 u1 hbl]

theorem backwardList_index (reg : Op → Option Op) :
    ∀ cs s u bs s' u', BackwardList reg cs s u = some (bs, s', u') →
      ∀ i, i < cs.length →
        ∃ fw b s1 u1 s2 u2,
          cs[cs.length - 1 - i]? = some fw ∧
          bs[i]? = some b ∧
          BackwardList reg (cs.drop (cs.length - i)) s u = some (bs.take i, s1, u1) ∧
          BackwardRecursive reg fw s1 u1 = some (b, s2, u2) := by
  intro cs
  induction cs with
  | nil => intro s u bs s' u' heq i hi; cases hi
  | cons f rest ih =>
    intro s u bs s' u' heq i hi
    rw [BackwardList_cons] at heq
    cases hbl : BackwardList reg rest s u with
    | none => rw [hbl] at heq; cases heq
    | some tr =>
      obtain ⟨bs1, s1, u1⟩ := tr
      rw [hbl] at heq
      dsimp only at heq
      cases hrec : BackwardRecursive reg f s1 u1 with
      | none => rw [hrec] at heq; cases heq
      | some tr2 =>
        obtain ⟨b, s2, u2⟩ := tr2
        rw [hrec] at heq
        cases heq
        have hlen : bs1.length = rest.length := backwardList_length reg rest s u bs1 s1 u1 hbl
        by_cases hieq : i = rest.length
        · subst hieq
          refine ⟨f, b, s1, u1, _, _, ?_, ?_, ?_, hrec⟩
          · have h0 : (f :: rest).length - 1 - rest.length = 0 := by simp
            rw [h0]
            simp
          · rw [← hlen]
            exact List.getElem?_concat_length bs1 b
          · have h1 : (f :: rest).length - rest.length = 1 := by simp
            rw [h1]
            have : (bs1 ++ [b]).take rest.length = bs1 := by
              rw [← hlen]
              exact List.take_left bs1 [b]
            rw [List.drop_one]
            simp only [List.tail_cons]
            rw [this]
            exact hbl
        · have hi2 : i < rest.length := by
            simp only [List.length_cons] at hi
            omega
          obtain ⟨fw, b2, s1x, u1x, s2x, u2x, hget, hbs, hdrop, hrecx⟩ :=
            ih s u bs1 s1 u1 hbl i hi2
          refine ⟨fw, b2, s1x, u1x, s2x, u2x, ?_, ?_, ?_, hrecx⟩
          · have h2 : (f :: rest).length - 1 - i = (rest.length - 1 - i) + 1 := by
              simp only [List.length_cons]
              omega
            rw [h2]
            simpa using hget
          · rw [List.getElem?_append_left (show i < bs1.length by omega)]
            exact hbs
          · have h3 : (f :: rest).length - i = (rest.length - i) + 1 := by
              simp only [List.length_cons]
              omega
            rw [h3]
            have h4 : (bs1 ++ [b]).take i = bs1.take i :=
              List.take_append_of_le_length (show i ≤ bs1.length by omega)
            simp only [List.drop_succ_cons]
            rw [h4]
            exact hdrop

/-- C6: the builder visits a composite's forward children in reverse order,
appending each recursively built backward child in that order: the backward
child sequence has the same length as the forward one, its `i`-th element
is the recursively built gradient of the `(n-1-i)`-th forward child (built
in the state left by the previously visited children), and the composite
branch assembles its result from exactly this sequence. -/
theorem claim_C6 (reg : Op → Option Op) (cs : List Op) (s : List String) (u : Nat)
    (bs : List Op) (s' : List String) (u' : Nat)
    (h : BackwardList reg cs s u = some (bs, s', u')) :
    bs.length = cs.length ∧
    (∀ ty ins outs,
      AllInSet ins kGradVarSuffix s = false →
      AllInSet outs kGradVarSuffix s = false →
      BackwardRecursive reg (Op.net ty ins outs cs) s u =
        some (sealNet "@GENERATED_BACKWARD@"
          (insertAggs (processDups u' (dupOutputOps bs) bs []).2
            (processDups u' (dupOutputOps bs) bs []).1), s', u' + 1)) ∧
    (∀ i, i < cs.length →
      ∃ fw b s1 u1 s2 u2,
        cs[cs.length - 1 - i]? = some fw ∧
        bs[i]? = some b ∧
        BackwardList reg (cs.drop (cs.length - i)) s u = some (bs.take i, s1, u1) ∧
        BackwardRecursive reg fw s1 u1 = some (b, s2, u2)) := by
  refine ⟨backwardList_length reg cs s u bs s' u' h, ?_, backwardList_index reg cs s u bs s' u' h⟩
  intro ty ins outs hin hout
  rw [backward_net_eq reg ty ins outs cs s u hin hout, h]

theorem claim_C6_witness :
    ([gGradOp, fGradOp] : List Op).length = ([fOp, gOp] : List Op).length ∧
    (∃ fw b s1 u1 s2 u2,
      ([fOp, gOp] : List Op)[0]? = some fw ∧
      ([gGradOp, fGradOp] : List Op)[1]? = some b ∧
      BackwardList fgReg (([fOp, gOp] : List Op).drop 1) ["@EMPTY@@GRAD"] 0 =
        some ([gGradOp], s1, u1) ∧
      BackwardRecursive fgReg fw s1 u1 = some (b, s2, u2)) :=
  ⟨(claim_C6 fgReg [fOp, gOp] ["@EMPTY@@GRAD"] 0 [gGradOp, fGradOp] ["@EMPTY@@GRAD"] 0
      (by decide)).1,
    (claim_C6 fgReg [fOp, gOp] ["@EMPTY@@GRAD"] 0 [gGradOp, fGradOp] ["@EMPTY@@GRAD"] 0
      (by decide)).2.2 1 (by decide)⟩

/-! ### Extensionality in the no-gradient set (claim C9) -/

theorem contains_congr {s t : List String} (h : SetEquiv s t) (a : String) :
    s.contains a = t.contains a := by
  rw [Bool.eq_iff_iff, contains_iff, contains_iff]
  exact h a

theorem AllInSet_congr {s t : List String} (h : SetEquiv s t) (m : VarMap)
    (suffix : String) : AllInSet m suffix s = AllInSet m suffix t := by
  unfold AllInSet
  induction m with
  | nil => rfl
  | cons p rest ih =>
    simp only [List.all_cons, ih]
    congr 1
    induction p.2 with
    | nil => rfl
    | cons n ns ih2 => simp only [List.all_cons, ih2, contains_congr h]

theorem insertNG_equiv {s t : List String} (h : SetEquiv s t) (n : String) :
    SetEquiv (insertNG n s) (insertNG n t) := by
  unfold insertNG
  rw [contains_congr h n]
  cases hc : t.contains n with
  | true => simpa using h
  | false =>
    intro x
    simp [h x]

theorem foldl_insertNG_equiv {s t : List String} (h : SetEquiv s t)
    (f : String → String) (ns : List String) :
    SetEquiv (ns.foldl (fun a n => insertNG (f n) a) s)
      (ns.foldl (fun a n => insertNG (f n) a) t) := by
  induction ns generalizing s t with
  | nil => simpa using h
  | cons n ns ih => exact ih (insertNG_equiv h (f n))

theorem insertGrads_equiv {s t : List String} (h : SetEquiv s t) (m : VarMap) :
    SetEquiv (insertGrads m s) (insertGrads m t) := by
  unfold insertGrads
  induction m generalizing s t with
  | nil => simpa using h
  | cons p rest ih => exact ih (foldl_insertNG_equiv h _ p.2)

theorem processNames_congr {s t : List String} (h : SetEquiv s t) (ns : List String) :
    processNames s ns = processNames t ns := by
  induction ns with
  | nil => rfl
  | cons n ns ih => simp only [processNames, ih, contains_congr h]

theorem processGradInputs_congr {s t : List String} (h : SetEquiv s t) (m : VarMap) :
    processGradInputs s m = processGradInputs t m := by
  induction m with
  | nil => rfl
  | cons p rest ih => simp only [processGradInputs, ih, processNames_congr h]

theorem sentinelOutputs_congr {s t : List String} (h : SetEquiv s t) (m : VarMap) :
    sentinelOutputs s m = sentinelOutputs t m := by
  unfold sentinelOutputs
  refine List.map_congr_left (fun p _ => ?_)
  congr 1
  refine List.map_congr_left (fun n _ => ?_)
  rw [contains_congr h n]

theorem backward_ext (reg : Op → Option Op) :
    ∀ fwd s u t, SetEquiv s t →
      ResEquiv (BackwardRecursive reg fwd s u) (BackwardRecursive reg fwd t u) := by
  refine BackwardRecursive.induct reg
    (fun fwd s u => ∀ t, SetEquiv s t →
      ResEquiv (BackwardRecursive reg fwd s u) (BackwardRecursive reg fwd t u))
    (fun cs s u => ∀ t, SetEquiv s t →
      ResEquivList (BackwardList reg cs s u) (BackwardList reg cs t u))
    ?_ ?_ ?_ ?_ ?_ ?_ ?_ ?_ ?_ ?_ ?_
  · intro fwd s u hg t h
    rw [backward_nop_of_inputs_in_set reg fwd s u hg,
      backward_nop_of_inputs_in_set reg fwd t u (by rw [← AllInSet_congr h]; exact hg)]
    exact ⟨rfl, rfl, h⟩
  · intro fwd s u h1 h2 t h
    have h1t : AllInSet fwd.inputs kGradVarSuffix t = false := by
      rw [← AllInSet_congr h]
      exact eq_false_of_ne_true h1
    have h2t : AllInSet fwd.outputs kGradVarSuffix t = true := by
      rw [← AllInSet_congr h]
      exact h2
    rw [BackwardRecursive.eq_def]
    conv_rhs => rw [BackwardRecursive.eq_def]
    simp only [eq_false_of_ne_true h1, h2, h1t, h2t, Bool.false_eq_true, if_false, if_true]
    exact ⟨rfl, rfl, insertGrads_equiv h fwd.inputs⟩
  · intro s u ty ins outs cs hnone h1 h2 ihl t h
    have h1' := eq_false_of_ne_true h1
    have h2' := eq_false_of_ne_true h2
    simp only [Op.inputs, Op.outputs] at h1' h2'
    have h1t : AllInSet ins kGradVarSuffix t = false := by rw [← AllInSet_congr h]; exact h1'
    have h2t : AllInSet outs kGradVarSuffix t = false := by rw [← AllInSet_congr h]; exact h2'
    have hrel := ihl t h
    rw [hnone] at hrel
    rw [backward_net_eq reg ty ins outs cs s u h1' h2',
      backward_net_eq reg ty ins outs cs t u h1t h2t, hnone]
    cases hbt : BackwardList reg cs t u with
    | none => exact trivial
    | some tr =>
      obtain ⟨bwds2, t1, v1⟩ := tr
      rw [hbt] at hrel
      exact hrel.elim
  · intro s u ty ins outs cs bwds s1 u1 hsome h1 h2 ihl t h
    have h1' := eq_false_of_ne_true h1
    have h2' := eq_false_of_ne_true h2
    simp only [Op.inputs, Op.outputs] at h1' h2'
    have h1t : AllInSet ins kGradVarSuffix t = false := by rw [← AllInSet_congr h]; exact h1'
    have h2t : AllInSet outs kGradVarSuffix t = false := by rw [← AllInSet_congr h]; exact h2'
    have hrel := ihl t h
    rw [hsome] at hrel
    rw [backward_net_eq reg ty ins outs cs s u h1' h2',
      backward_net_eq reg ty ins outs cs t u h1t h2t, hsome]
    cases hbt : BackwardList reg cs t u with
    | none => rw [hbt] at hrel; exact hrel.elim
    | some tr =>
      obtain ⟨bwds2, t1, v1⟩ := tr
      rw [hbt] at hrel
      obtain ⟨hb, hu, hst⟩ := hrel
      subst hb
      subst hu
      exact ⟨rfl, rfl, hst⟩
  · intro s u ty ins outs hnone h1 h2 t h
    have h1' := eq_false_of_ne_true h1
    have h2' := eq_false_of_ne_true h2
    simp only [Op.inputs, Op.outputs] at h1' h2'
    have h1t : AllInSet ins kGradVarSuffix t = false := by rw [← AllInSet_congr h]; exact h1'
    have h2t : AllInSet outs kGradVarSuffix t = false := by rw [← AllInSet_congr h]; exact h2'
    rw [BackwardRecursive.eq_def]
    conv_rhs => rw [BackwardRecursive.eq_def]
    simp only [Op.inputs, Op.outputs, h1', h2', h1t, h2t, Bool.false_eq_true, if_false]
    rw [hnone]
    exact trivial
  · intro s u ty ins outs g hreg pr hemp h1 h2 t h
    have h1' := eq_false_of_ne_true h1
    have h2' := eq_false_of_ne_true h2
    simp only [Op.inputs, Op.outputs] at h1' h2'
    have h1t : AllInSet ins kGradVarSuffix t = false := by rw [← AllInSet_congr h]; exact h1'
    have h2t : AllInSet outs kGradVarSuffix t = false := by rw [← AllInSet_congr h]; exact h2'
    rw [backward_prim_reg reg ty ins outs s u g h1' h2' hreg,
      backward_prim_reg reg ty ins outs t u g h1t h2t hreg]
    rw [← processGradInputs_congr h g.inputs, ← sentinelOutputs_congr h g.outputs]
    simp only [hemp, if_true]
    exact ⟨rfl, rfl, h⟩
  · intro s u ty ins outs g hreg pr hemp h1 h2 t h
    have h1' := eq_false_of_ne_true h1
    have h2' := eq_false_of_ne_true h2
    simp only [Op.inputs, Op.outputs] at h1' h2'
    have h1t : AllInSet ins kGradVarSuffix t = false := by rw [← AllInSet_congr h]; exact h1'
    have h2t : AllInSet outs kGradVarSuffix t = false := by rw [← AllInSet_congr h]; exact h2'
    rw [backward_prim_reg reg ty ins outs s u g h1' h2' hreg,
      backward_prim_reg reg ty ins outs t u g h1t h2t hreg]
    rw [← processGradInputs_congr h g.inputs, ← sentinelOutputs_congr h g.outputs]
    simp only [Bool.eq_false_iff.mpr hemp, Bool.false_eq_true, if_false]
    exact ⟨rfl, rfl, h⟩
  · intro s u t h
    rw [BackwardList_nil, BackwardList_nil]
    exact ⟨rfl, rfl, h⟩
  · intro f rest s u hnone ihl t h
    have hrel := ihl t h
    rw [hnone] at hrel
    rw [BackwardList_cons, BackwardList_cons, hnone]
    cases hbt : BackwardList reg rest t u with
    | none => exact trivial
    | some tr =>
      obtain ⟨bs2, t1, v1⟩ := tr
      rw [hbt] at hrel
      exact hrel.elim
  · intro f rest s u bs1 s1 u1 hsome hrecnone ihl ihf t h
    have hrel := ihl t h
    rw [hsome] at hrel
    rw [BackwardList_cons, BackwardList_cons, hsome]
    dsimp only
    rw [hrecnone]
    cases hbt : BackwardList reg rest t u with
    | none => exact trivial
    | some tr =>
      obtain ⟨bs2, t1, v1⟩ := tr
      rw [hbt] at hrel
      obtain ⟨hb, hu, hst⟩ := hrel
      subst hb
      subst hu
      dsimp only
      have hrelf := ihf t1 hst
      rw [hrecnone] at hrelf
      cases hrt : BackwardRecursive reg f t1 u1 with
      | none => exact trivial
      | some tr2 =>
        obtain ⟨b2, t2, v2⟩ := tr2
        rw [hrt] at hrelf
        exact hrelf.elim
  · intro f rest s u bs1 s1 u1 hsome b s2 u2 hrec ihl ihf t h
    have hrel := ihl t h
    rw [hsome] at hrel
    rw [BackwardList_cons, BackwardList_cons, hsome]
    dsimp only
    rw [hrec]
    cases hbt : BackwardList reg rest t u with
    | none => rw [hbt] at hrel; exact hrel.elim
    | some tr =>
      obtain ⟨bs2, t1, v1⟩ := tr
      rw [hbt] at hrel
      obtain ⟨hb, hu, hst⟩ := hrel
      subst hb
      subst hu
      dsimp only
      have hrelf := ihf t1 hst
      rw [hrec] at hrelf
      cases hrt : BackwardRecursive reg f t1 u1 with
      | none => rw [hrt] at hrelf; exact hrelf.elim
      | some tr2 =>
        obtain ⟨b2, t2, v2⟩ := tr2
        rw [hrt] at hrelf
        obtain ⟨hb2, hu2, hst2⟩ := hrelf
        subst hb2
        subst hu2
        exact ⟨rfl, rfl, hst2⟩

theorem mem_foldl_insertNG_iff (f : String → String) (ns : List String)
    (a0 : List String) (x : String) :
    x ∈ ns.foldl (fun a n => insertNG (f n) a) a0 ↔ x ∈ a0 ∨ ∃ n ∈ ns, x = f n := by
  induction ns generalizing a0 with
  | nil => simp
  | cons n ns ih =>
    rw [List.foldl_cons, ih]
    unfold insertNG
    constructor
    · rintro (hx | ⟨m, hm, rfl⟩)
      · split at hx
        · exact Or.inl hx
        · rcases List.mem_cons.mp hx with rfl | hx
          · exact Or.inr ⟨n, List.mem_cons_self n ns, rfl⟩
          · exact Or.inl hx
      · exact Or.inr ⟨m, List.mem_cons_of_mem n hm, rfl⟩
    · rintro (hx | ⟨m, hm, rfl⟩)
      · left
        split
        · exact hx
        · exact List.mem_cons_of_mem _ hx
      · rcases List.mem_cons.mp hm with rfl | hm
        · left
          split
          · exact (contains_iff _ _).mp (by assumption)
          · exact List.mem_cons_self _ _
        · exact Or.inr ⟨m, hm, rfl⟩

/-- C9: the builder is deterministic in its inputs: two runs over the same
forward graph and registry, from initial no-gradient variable lists with
the same membership and a counter starting at zero, return identical
backward graphs (the same operators, child ordering, variable names,
generated rename tags and aggregation operators). -/
theorem claim_C9 (reg : Op → Option Op) (fwd : Op) (v1 v2 : List String)
    (h : ∀ x, x ∈ v1 ↔ x ∈ v2) : Backward reg fwd v1 = Backward reg fwd v2 := by
  unfold Backward
  have hseed : SetEquiv
      (v1.foldl (fun a n => insertNG (n ++ kGradVarSuffix) a)
        (insertNG (kEmptyVarName ++ kGradVarSuffix) []))
      (v2.foldl (fun a n => insertNG (n ++ kGradVarSuffix) a)
        (insertNG (kEmptyVarName ++ kGradVarSuffix) [])) := by
    intro x
    rw [mem_foldl_insertNG_iff, mem_foldl_insertNG_iff]
    constructor
    · rintro (hx | ⟨n, hn, rfl⟩)
      · exact Or.inl hx
      · exact Or.inr ⟨n, (h n).mp hn, rfl⟩
    · rintro (hx | ⟨n, hn, rfl⟩)
      · exact Or.inl hx
      · exact Or.inr ⟨n, (h n).mpr hn, rfl⟩
  have hrel := backward_ext reg fwd _ 0 _ hseed
  dsimp only
  cases hb1 : BackwardRecursive reg fwd
      (v1.foldl (fun a n => insertNG (n ++ kGradVarSuffix) a)
        (insertNG (kEmptyVarName ++ kGradVarSuffix) [])) 0 with
  | none =>
    rw [hb1] at hrel
    cases hb2 : BackwardRecursive reg fwd
        (v2.foldl (fun a n => insertNG (n ++ kGradVarSuffix) a)
          (insertNG (kEmptyVarName ++ kGradVarSuffix) [])) 0 with
    | none => rfl
    | some tr =>
      obtain ⟨r2, t2, w2⟩ := tr
      rw [hb2] at hrel
      exact hrel.elim
  | some tr =>
    obtain ⟨r1, t1, w1⟩ := tr
    rw [hb1] at hrel
    cases hb2 : BackwardRecursive reg fwd
        (v2.foldl (fun a n => insertNG (n ++ kGradVarSuffix) a)
          (insertNG (kEmptyVarName ++ kGradVarSuffix) [])) 0 with
    | none => rw [hb2] at hrel; exact hrel.elim
    | some tr2 =>
      obtain ⟨r2, t2, w2⟩ := tr2
      rw [hb2] at hrel
      obtain ⟨hr, hw, hst⟩ := hrel
      dsimp only
      rw [hr]

theorem claim_C9_witness :
    Backward fgReg fgNet ["D", "E"] = Backward fgReg fgNet ["E", "D"] :=
  claim_C9 fgReg fgNet ["D", "E"] ["E", "D"] (fun x => by
    simp only [List.mem_cons, List.not_mem_nil, or_false]
    exact or_comm)


/-! ### The duplicate-output machinery (claim C1) -/

theorem processDups_eq (uid : Nat) :
    ∀ (d : List (String × List Nat)) (net : List Op) (pend : List (Nat × Op)),
      processDups uid d net pend = (foldRename uid d net, pend ++ pendingOf uid d) := by
  intro d
  induction d with
  | nil => intro net pend; simp [processDups, foldRename, pendingOf]
  | cons e rest ih =>
    intro net pend
    by_cases hlen : e.2.length = 1
    · simp [processDups, foldRename, pendingOf, hlen, ih]
    · simp [processDups, foldRename, pendingOf, hlen, ih]

theorem varNamesVM_renameVM (f t : String) (m : VarMap) :
    varNamesVM (renameVM f t m) =
      (varNamesVM m).map (fun n => if n = f then t else n) := by
  unfold renameVM varNamesVM
  induction m with
  | nil => simp
  | cons p rest ih => simp [ih]

theorem rename_outputs (f t : String) (o : Op) :
    varNamesVM (Op.Rename f t o).outputs =
      (varNamesVM o.outputs).map (fun n => if n = f then t else n) := by
  cases o <;> simp [Op.Rename, Op.outputs, varNamesVM_renameVM]

theorem mem_rename_out_keep {x f : String} (t : String) (hf : f ≠ x) (o : Op)
    (h : x ∈ varNamesVM o.outputs) : x ∈ varNamesVM (Op.Rename f t o).outputs := by
  rw [rename_outputs]
  refine List.mem_map.mpr ⟨x, h, ?_⟩
  rw [if_neg (fun he => hf he.symm)]

theorem not_mem_rename_out {x f t : String} (ht : t ≠ x) (o : Op)
    (h : x ∉ varNamesVM o.outputs) : x ∉ varNamesVM (Op.Rename f t o).outputs := by
  rw [rename_outputs]
  intro hcon
  rcases List.mem_map.mp hcon with ⟨y, hy, hyx⟩
  by_cases hyf : y = f
  · rw [if_pos hyf] at hyx
    exact ht hyx
  · rw [if_neg hyf] at hyx
    exact h (hyx ▸ hy)

theorem rename_removes_out {x f t : String} (hne : t ≠ x) (hfx : f = x) (o : Op) :
    x ∉ varNamesVM (Op.Rename f t o).outputs := by
  rw [rename_outputs]
  intro hcon
  rcases List.mem_map.mp hcon with ⟨y, hy, hyx⟩
  by_cases hyf : y = f
  · rw [if_pos hyf] at hyx
    exact hne hyx
  · rw [if_neg hyf] at hyx
    exact hyf (hyx.trans hfx.symm)

theorem modifyOp_get (f : Op → Op) (i j : Nat) (l : List Op) :
    (modifyOp f i l)[j]? = if i = j then (l[j]?).map f else l[j]? := by
  unfold modifyOp
  split
  · rename_i o hg
    rw [List.get?_eq_getElem?] at hg
    by_cases hij : i = j
    · subst hij
      rw [if_pos rfl, hg]
      exact List.getElem?_set_self (List.getElem?_eq_some_iff.mp hg).1
    · rw [if_neg hij]
      exact List.getElem?_set_ne hij
  · rename_i hg
    rw [List.get?_eq_getElem?] at hg
    by_cases hij : i = j
    · subst hij
      rw [if_pos rfl, hg]
      rfl
    · rw [if_neg hij]

theorem modifyOp_length (f : Op → Op) (i : Nat) (l : List Op) :
    (modifyOp f i l).length = l.length := by
  unfold modifyOp
  split
  · exact List.length_set l i _
  · rfl

theorem renameEntryAux_length (uid : Nat) (n : String) :
    ∀ (ids : List Nat) (i0 : Nat) (net : List Op),
      (renameEntryAux uid n i0 ids net).length = net.length := by
  intro ids
  induction ids with
  | nil => intro i0 net; rfl
  | cons id rest ih =>
    intro i0 net
    rw [renameEntryAux, ih, modifyOp_length]

theorem renameEntryAux_untouched (uid : Nat) (n : String) :
    ∀ (ids : List Nat) (i0 : Nat) (net : List Op) (j : Nat), j ∉ ids →
      (renameEntryAux uid n i0 ids net)[j]? = net[j]? := by
  intro ids
  induction ids with
  | nil => intro i0 net j _; rfl
  | cons id rest ih =>
    intro i0 net j hj
    rw [renameEntryAux, ih _ _ j (fun hc => hj (List.mem_cons_of_mem id hc)),
      modifyOp_get, if_neg (fun hc => hj (by rw [← hc]; exact List.mem_cons_self id rest))]

theorem mem_of_getElem_opt {α : Type} {l : List α} {i : Nat} {a : α}
    (h : l[i]? = some a) : a ∈ l := by
  obtain ⟨hlt, heq⟩ := List.getElem?_eq_some_iff.mp h
  exact heq ▸ List.getElem_mem hlt

theorem renameEntryAux_at (uid : Nat) (n : String) :
    ∀ (ids : List Nat) (i0 : Nat) (net : List Op), ids.Nodup →
      ∀ i j, ids[i]? = some j →
        (renameEntryAux uid n i0 ids net)[j]? =
          (net[j]?).map (Op.Rename n (renName n uid (i0 + i))) := by
  intro ids
  induction ids with
  | nil => intro i0 net _ i j hij; simp at hij
  | cons id rest ih =>
    intro i0 net hnd i j hij
    have hndr := List.nodup_cons.mp hnd
    cases i with
    | zero =>
      simp only [List.getElem?_cons_zero, Option.some.injEq] at hij
      rw [renameEntryAux,
        renameEntryAux_untouched uid n rest (i0 + 1) _ j (by rw [← hij]; exact hndr.1),
        modifyOp_get, if_pos hij, Nat.add_zero]
    | succ k =>
      simp only [List.getElem?_cons_succ] at hij
      have hjr : j ∈ rest := mem_of_getElem_opt hij
      have hne : id ≠ j := fun hc => hndr.1 (by rw [hc]; exact hjr)
      rw [renameEntryAux, ih (i0 + 1) _ hndr.2 k j hij, modifyOp_get, if_neg hne,
        show i0 + 1 + k = i0 + (k + 1) by omega]

theorem renameEntryAux_pres (uid : Nat) (n : String) (P : Op → Prop) :
    ∀ (ids : List Nat) (i0 : Nat) (net : List Op),
      (∀ o i, i0 ≤ i → i < i0 + ids.length → P o → P (Op.Rename n (renName n uid i) o)) →
      ∀ (j : Nat), (∀ op, net[j]? = some op → P op) →
        ∀ op', (renameEntryAux uid n i0 ids net)[j]? = some op' → P op' := by
  intro ids
  induction ids with
  | nil => intro i0 net _ j hnet op' hop'; exact hnet op' hop'
  | cons id rest ih =>
    intro i0 net hP j hnet op' hop'
    refine ih (i0 + 1) (modifyOp (Op.Rename n (renName n uid i0)) id net)
      (fun o i h1 h2 ho => hP o i (by omega) (by simp only [List.length_cons]; omega) ho) j
      ?_ op' hop'
    intro op hop
    rw [modifyOp_get] at hop
    by_cases hij : id = j
    · rw [if_pos hij] at hop
      cases hg : net[j]? with
      | none => rw [hg] at hop; cases hop
      | some o0 =>
        rw [hg] at hop
        cases hop
        exact hP o0 i0 (Nat.le_refl i0) (by simp) (hnet o0 hg)
    · rw [if_neg hij] at hop
      exact hnet op hop

theorem foldRename_length (uid : Nat) :
    ∀ (d : List (String × List Nat)) (net : List Op),
      (foldRename uid d net).length = net.length := by
  intro d
  induction d with
  | nil => intro net; rfl
  | cons e rest ih =>
    intro net
    unfold foldRename
    rw [List.foldl_cons]
    by_cases hlen : e.2.length = 1
    · rw [if_pos hlen]
      exact ih net
    · rw [if_neg hlen]
      have := ih (renameEntryAux uid e.1 0 e.2 net)
      unfold foldRename at this
      rw [this, renameEntryAux_length]

theorem foldRename_pres (uid : Nat) (P : Op → Prop) :
    ∀ (d : List (String × List Nat)) (net : List Op),
      (∀ e ∈ d, ∀ o i, i < e.2.length → P o → P (Op.Rename e.1 (renName e.1 uid i) o)) →
      ∀ (j : Nat), (∀ op, net[j]? = some op → P op) →
        ∀ op', (foldRename uid d net)[j]? = some op' → P op' := by
  intro d
  induction d with
  | nil => intro net _ j hnet op' hop'; exact hnet op' hop'
  | cons e rest ih =>
    intro net hP j hnet op' hop'
    unfold foldRename at hop'
    rw [List.foldl_cons] at hop'
    by_cases hlen : e.2.length = 1
    · rw [if_pos hlen] at hop'
      exact ih net (fun e2 he2 => hP e2 (List.mem_cons_of_mem e he2)) j hnet op' hop'
    · rw [if_neg hlen] at hop'
      refine ih (renameEntryAux uid e.1 0 e.2 net)
        (fun e2 he2 => hP e2 (List.mem_cons_of_mem e he2)) j ?_ op' hop'
      intro op hop
      exact renameEntryAux_pres uid e.1 P e.2 0 net
        (fun o i h1 h2 ho => hP e (List.mem_cons_self e rest) o i (by omega) ho)
        j hnet op hop

theorem addDup_keys (n : String) (id : Nat) :
    ∀ (m : List (String × List Nat)),
      (addDup n id m).map Prod.fst =
        if n ∈ m.map Prod.fst then m.map Prod.fst else m.map Prod.fst ++ [n] := by
  intro m
  induction m with
  | nil => simp [addDup]
  | cons e rest ih =>
    by_cases hen : e.1 = n
    · simp [addDup, hen]
    · simp only [addDup, if_neg hen, List.map_cons, ih]
      by_cases hmem : n ∈ rest.map Prod.fst
      · rw [if_pos hmem, if_pos (List.mem_cons_of_mem e.1 hmem)]
      · rw [if_neg hmem,
          if_neg (fun hc => (List.mem_cons.mp hc).elim (fun h => hen h.symm) hmem)]
        rfl

theorem addDup_inv {gops : List Op} {k : Nat} (n : String)
    (hn : ∃ op, gops[k]? = some op ∧ n ∈ varNamesVM op.outputs) :
    ∀ (m : List (String × List Nat)), DupInvLe gops m k →
      DupInvLe gops (addDup n k m) k := by
  intro m
  induction m with
  | nil =>
    intro _
    refine ⟨by simp [addDup], ?_⟩
    intro e he
    rw [addDup] at he
    rcases List.mem_singleton.mp he with rfl
    exact ⟨by simp, by simp, fun j hj => by
      rcases List.mem_singleton.mp hj with rfl
      exact ⟨Nat.le_refl _, hn⟩⟩
  | cons e0 rest ih =>
    intro hinv
    obtain ⟨hkeys, hent⟩ := hinv
    rw [List.map_cons, List.nodup_cons] at hkeys
    by_cases hen : e0.1 = n
    · rw [addDup, if_pos hen]
      refine ⟨by simpa using hkeys, ?_⟩
      intro e he
      rcases List.mem_cons.mp he with rfl | he
      · obtain ⟨hne, hsort, hj⟩ := hent e0 (List.mem_cons_self e0 rest)
        refine ⟨by simp, ?_, ?_⟩
        · rw [List.pairwise_append]
          exact ⟨hsort, by simp, fun a ha b hb => by
            rcases List.mem_singleton.mp hb with rfl
            exact (hj a ha).1⟩
        · intro j hj2
          rcases List.mem_append.mp hj2 with hj2 | hj2
          · exact hj j hj2
          · rcases List.mem_singleton.mp hj2 with rfl
            exact ⟨Nat.le_refl _, by rw [hen]; exact hn⟩
      · exact hent e (List.mem_cons_of_mem e0 he)
    · rw [addDup, if_neg hen]
      have hrest : DupInvLe gops rest k := ⟨hkeys.2, fun e he =>
        hent e (List.mem_cons_of_mem e0 he)⟩
      obtain ⟨hkeys2, hent2⟩ := ih hrest
      constructor
      · rw [List.map_cons, List.nodup_cons]
        refine ⟨?_, hkeys2⟩
        rw [addDup_keys]
        split
        · exact hkeys.1
        · intro hc
          rcases List.mem_append.mp hc with hc | hc
          · exact hkeys.1 hc
          · exact hen (List.mem_singleton.mp hc)
      · intro e he
        rcases List.mem_cons.mp he with rfl | he
        · exact hent e (List.mem_cons_self e rest)
        · exact hent2 e he

theorem innerFold_inv {gops : List Op} {k : Nat} (op0 : Op)
    (hop0 : gops[k]? = some op0) :
    ∀ (names : List String), (∀ n ∈ names, n ∈ varNamesVM op0.outputs) →
      ∀ (m : List (String × List Nat)), DupInvLe gops m k →
        DupInvLe gops (names.foldl (fun m n => addDup n k m) m) k := by
  intro names
  induction names with
  | nil => intro _ m hm; exact hm
  | cons n rest ih =>
    intro hnames m hm
    rw [List.foldl_cons]
    exact ih (fun x hx => hnames x (List.mem_cons_of_mem n hx)) _
      (addDup_inv n ⟨op0, hop0, hnames n (List.mem_cons_self n rest)⟩ m hm)

theorem dupInv_of_le {gops : List Op} {m : List (String × List Nat)} {k : Nat}
    (h : DupInvLe gops m k) : DupInv gops m (k + 1) :=
  ⟨h.1, fun e he =>
    ⟨(h.2 e he).1, (h.2 e he).2.1, fun j hj =>
      ⟨Nat.lt_succ_of_le ((h.2 e he).2.2 j hj).1, ((h.2 e he).2.2 j hj).2⟩⟩⟩

theorem dupInvLe_of_lt {gops : List Op} {m : List (String × List Nat)} {k : Nat}
    (h : DupInv gops m k) : DupInvLe gops m k :=
  ⟨h.1, fun e he =>
    ⟨(h.2 e he).1, (h.2 e he).2.1, fun j hj =>
      ⟨Nat.le_of_lt ((h.2 e he).2.2 j hj).1, ((h.2 e he).2.2 j hj).2⟩⟩⟩

theorem dupFold_inv (gops : List Op) :
    ∀ (ops : List Op) (m : List (String × List Nat)) (k : Nat),
      gops.drop k = ops → DupInv gops m k →
      DupInv gops
        (ops.foldl
          (fun acc op =>
            ((varNamesVM op.outputs).foldl (fun m n => addDup n acc.2 m) acc.1, acc.2 + 1))
          (m, k)).1 (k + ops.length) := by
  intro ops
  induction ops with
  | nil => intro m k _ hm; simpa using hm
  | cons op rest ih =>
    intro m k hdrop hm
    have hget : gops[k]? = some op := by
      have h0 : (gops.drop k)[0]? = some op := by
        rw [hdrop]
        simp
      rw [List.getElem?_drop, Nat.add_zero] at h0
      exact h0
    have hdrop2 : gops.drop (k + 1) = rest := by
      have hdd : gops.drop (k + 1) = (gops.drop k).drop 1 := by
        rw [List.drop_drop]
      rw [hdd, hdrop]
      rfl
    have hstep := innerFold_inv op hget (varNamesVM op.outputs) (fun n hn => hn) m
      (dupInvLe_of_lt hm)
    have hres := ih ((varNamesVM op.outputs).foldl (fun m n => addDup n k m) m) (k + 1)
      hdrop2 (dupInv_of_le hstep)
    rw [List.foldl_cons]
    dsimp only
    rw [List.length_cons, show k + (rest.length + 1) = k + 1 + rest.length by omega]
    exact hres

theorem dupOutputOps_inv (ops : List Op) :
    DupInv ops (dupOutputOps ops) ops.length := by
  have := dupFold_inv ops ops [] 0 rfl ⟨List.nodup_nil, fun e he => absurd he (List.not_mem_nil e)⟩
  rw [Nat.zero_add] at this
  exact this

theorem dup_keys_nodup (ops : List Op) : ((dupOutputOps ops).map Prod.fst).Nodup :=
  (dupOutputOps_inv ops).1

theorem nodup_keys_unique :
    ∀ (d : List (String × List Nat)), (d.map Prod.fst).Nodup →
      ∀ e ∈ d, ∀ e' ∈ d, e.1 = e'.1 → e = e' := by
  intro d
  induction d with
  | nil => intro _ e he; cases he
  | cons a rest ih =>
    intro hnd e he e' he' hee
    rw [List.map_cons, List.nodup_cons] at hnd
    rcases List.mem_cons.mp he with he1 | he2
    · rcases List.mem_cons.mp he' with he1' | he2'
      · rw [he1, he1']
      · exfalso
        apply hnd.1
        rw [← he1, hee]
        exact List.mem_map_of_mem Prod.fst he2'
    · rcases List.mem_cons.mp he' with he1' | he2'
      · exfalso
        apply hnd.1
        rw [← he1', ← hee]
        exact List.mem_map_of_mem Prod.fst he2
      · exact ih hnd.2 e he2 e' he2' hee

theorem mem_pendingOf {uid : Nat} {d : List (String × List Nat)} {q : Nat × Op} :
    q ∈ pendingOf uid d ↔
      ∃ e ∈ d, ¬ e.2.length = 1 ∧
        q = (e.2.getLastD 0, mkAdd ((List.range e.2.length).map (renName e.1 uid)) e.1) := by
  unfold pendingOf
  rw [List.mem_filterMap]
  constructor
  · rintro ⟨e, he, hfe⟩
    by_cases hlen : e.2.length = 1
    · rw [if_pos hlen] at hfe
      cases hfe
    · rw [if_neg hlen] at hfe
      exact ⟨e, he, hlen, (Option.some.injEq _ _ ▸ hfe).symm⟩
  · rintro ⟨e, he, hlen, rfl⟩
    exact ⟨e, he, by rw [if_neg hlen]⟩

theorem getLastD_irrel :
    ∀ (l : List Nat) (b d d' : Nat), (b :: l).getLastD d = (b :: l).getLastD d' := by
  intro l
  cases l with
  | nil => intro b d d'; rfl
  | cons c rest => intro b d d'; rfl

theorem getLastD_mem : ∀ (l : List Nat), l ≠ [] → ∀ d, l.getLastD d ∈ l := by
  intro l
  induction l with
  | nil => intro h; cases h rfl
  | cons b rest ih =>
    intro _ d
    cases rest with
    | nil => exact List.mem_singleton.mpr rfl
    | cons c rest2 =>
      rw [List.getLastD_cons]
      exact List.mem_cons_of_mem b (ih (by simp) b)

theorem sorted_le_getLastD :
    ∀ (l : List Nat), l.Pairwise (· ≤ ·) → ∀ j ∈ l, j ≤ l.getLastD 0 := by
  intro l
  induction l with
  | nil => intro _ j hj; cases hj
  | cons b rest ih =>
    intro hsort j hj
    rw [List.pairwise_cons] at hsort
    cases rest with
    | nil =>
      rcases List.mem_singleton.mp hj with rfl
      rfl
    | cons c rest2 =>
      rw [List.getLastD_cons, getLastD_irrel rest2 c b 0]
      rcases List.mem_cons.mp hj with rfl | hj
      · exact Nat.le_trans (hsort.1 _ (getLastD_mem (c :: rest2) (by simp) 0))
          (Nat.le_refl _)
      · exact ih hsort.2 j hj

theorem renName_ne (n : String) (uid i : Nat) : renName n uid i ≠ n := by
  intro h
  have hlen := congrArg String.length h
  rw [renName] at hlen
  rw [String.length_append, String.length_append, String.length_append,
    String.length_append] at hlen
  have h8 : ("@RENAME@" : String).length = 8 := rfl
  have h1 : ("@" : String).length = 1 := rfl
  omega

theorem insertDesc_perm (x : Nat × Op) :
    ∀ (l : List (Nat × Op)), (insertDesc x l).Perm (x :: l) := by
  intro l
  induction l with
  | nil => exact List.Perm.refl _
  | cons y ys ih =>
    rw [insertDesc]
    split
    · exact List.Perm.refl _
    · exact (List.Perm.cons y ih).trans (List.Perm.swap x y ys)

theorem sortPend_aux_perm :
    ∀ (l acc : List (Nat × Op)),
      (l.foldl (fun a x => insertDesc x a) acc).Perm (l ++ acc) := by
  intro l
  induction l with
  | nil => intro acc; exact List.Perm.refl _
  | cons x rest ih =>
    intro acc
    rw [List.foldl_cons]
    refine (ih (insertDesc x acc)).trans ?_
    refine (List.Perm.append_left rest (insertDesc_perm x acc)).trans ?_
    exact List.perm_middle

theorem sortPendDesc_perm (l : List (Nat × Op)) : (sortPendDesc l).Perm l := by
  unfold sortPendDesc
  simpa using sortPend_aux_perm l []

theorem insertDesc_sorted (x : Nat × Op) :
    ∀ (l : List (Nat × Op)), l.Pairwise (fun a b => b.1 ≤ a.1) →
      (insertDesc x l).Pairwise (fun a b => b.1 ≤ a.1) := by
  intro l
  induction l with
  | nil => intro _; exact List.pairwise_singleton _ x
  | cons y ys ih =>
    intro hs
    rw [List.pairwise_cons] at hs
    rw [insertDesc]
    split
    · rename_i hlt
      rw [List.pairwise_cons]
      refine ⟨?_, List.pairwise_cons.mpr hs⟩
      intro z hz
      rcases List.mem_cons.mp hz with rfl | hz
      · exact Nat.le_of_lt hlt
      · exact Nat.le_trans (hs.1 z hz) (Nat.le_of_lt hlt)
    · rename_i hge
      rw [List.pairwise_cons]
      refine ⟨?_, ih hs.2⟩
      intro z hz
      rcases List.mem_cons.mp ((insertDesc_perm x ys).mem_iff.mp hz) with rfl | hz2
      · omega
      · exact hs.1 z hz2

theorem sortPend_aux_sorted :
    ∀ (l acc : List (Nat × Op)), acc.Pairwise (fun a b => b.1 ≤ a.1) →
      (l.foldl (fun a x => insertDesc x a) acc).Pairwise (fun a b => b.1 ≤ a.1) := by
  intro l
  induction l with
  | nil => intro acc h; exact h
  | cons x rest ih =>
    intro acc h
    rw [List.foldl_cons]
    exact ih _ (insertDesc_sorted x acc h)

theorem sortPendDesc_sorted (l : List (Nat × Op)) :
    (sortPendDesc l).Pairwise (fun a b => b.1 ≤ a.1) :=
  sortPend_aux_sorted l [] (List.Pairwise.nil)

theorem sorted_strict {m : List (Nat × Op)}
    (hs : m.Pairwise (fun a b => b.1 ≤ a.1)) (hnd : (m.map Prod.fst).Nodup) :
    m.Pairwise (fun a b => b.1 < a.1) := by
  have hne : m.Pairwise (fun a b => a.1 ≠ b.1) := List.pairwise_map.mp hnd
  exact (hs.and hne).imp (fun h => Nat.lt_of_le_of_ne h.1 (Ne.symm h.2))

theorem insertAt_length {j : Nat} {l : List Op} (x : Op) (h : j ≤ l.length) :
    (insertAt j x l).length = l.length + 1 := by
  unfold insertAt
  rw [List.length_append, List.length_cons, List.length_take, List.length_drop]
  omega

theorem insertAt_get_lt {i j : Nat} {l : List Op} (x : Op) (hj : j ≤ l.length)
    (hij : i < j) : (insertAt j x l)[i]? = l[i]? := by
  unfold insertAt
  rw [List.getElem?_append_left (by rw [List.length_take]; omega), List.getElem?_take]
  rw [if_pos hij]

theorem insertAt_get_self {j : Nat} {l : List Op} (x : Op) (hj : j ≤ l.length) :
    (insertAt j x l)[j]? = some x := by
  unfold insertAt
  rw [List.getElem?_append_right (by rw [List.length_take]; omega)]
  rw [List.length_take, Nat.min_eq_left hj, Nat.sub_self]
  simp

theorem insertAt_get_succ {i j : Nat} {l : List Op} (x : Op) (hj : j ≤ l.length)
    (hij : j ≤ i) : (insertAt j x l)[i + 1]? = l[i]? := by
  unfold insertAt
  rw [List.getElem?_append_right (by rw [List.length_take]; omega)]
  rw [List.length_take, Nat.min_eq_left hj]
  have h2 : i + 1 - j = (i - j) + 1 := by omega
  rw [h2, List.getElem?_cons_succ, List.getElem?_drop,
    show j + (i - j) = i by omega]

theorem foldInsert_shift :
    ∀ (rest : List (Nat × Op)) (l : List Op) (i : Nat),
      (∀ q ∈ rest, q.1 < i) → (∀ q ∈ rest, q.1 < l.length) →
      (rest.foldl (fun acc x => insertAt (x.1 + 1) x.2 acc) l)[i + rest.length]? = l[i]? := by
  intro rest
  induction rest with
  | nil => intro l i _ _; simp
  | cons q rest2 ih =>
    intro l i hlt hb
    rw [List.foldl_cons, List.length_cons,
      show i + (rest2.length + 1) = (i + 1) + rest2.length by omega]
    have hql : q.1 + 1 ≤ l.length := hb q (List.mem_cons_self q rest2)
    have := ih (insertAt (q.1 + 1) q.2 l) (i + 1)
      (fun r hr => Nat.lt_succ_of_lt (hlt r (List.mem_cons_of_mem q hr)))
      (fun r hr => by
        rw [insertAt_length q.2 hql]
        exact Nat.lt_succ_of_lt (hb r (List.mem_cons_of_mem q hr)))
    rw [this, insertAt_get_succ q.2 hql (hlt q (List.mem_cons_self q rest2))]

theorem foldInsert_spec :
    ∀ (ps : List (Nat × Op)) (l : List Op),
      ps.Pairwise (fun a b => b.1 < a.1) → (∀ q ∈ ps, q.1 < l.length) →
      ∀ q ∈ ps,
        (ps.foldl (fun acc x => insertAt (x.1 + 1) x.2 acc) l)[q.1 +
            (ps.filter (fun r => decide (r.1 < q.1))).length]? = l[q.1]? ∧
        (ps.foldl (fun acc x => insertAt (x.1 + 1) x.2 acc) l)[q.1 +
            (ps.filter (fun r => decide (r.1 < q.1))).length + 1]? = some q.2 := by
  intro ps
  induction ps with
  | nil => intro l _ _ q hq; cases hq
  | cons x rest ih =>
    intro l hsort hb q hq
    rw [List.pairwise_cons] at hsort
    have hxl : x.1 + 1 ≤ l.length := hb x (List.mem_cons_self x rest)
    rcases List.mem_cons.mp hq with rfl | hq2
    · have hfx : ((q :: rest).filter (fun r => decide (r.1 < q.1))).length = rest.length := by
        rw [List.filter_cons]
        rw [if_neg (by simp)]
        have : rest.filter (fun r => decide (r.1 < q.1)) = rest :=
          List.filter_eq_self.mpr (fun r hr => by
            simpa using hsort.1 r hr)
        rw [this]
      rw [hfx, List.foldl_cons]
      constructor
      · have := foldInsert_shift rest (insertAt (q.1 + 1) q.2 l) q.1
          (fun r hr => hsort.1 r hr)
          (fun r hr => by
            rw [insertAt_length q.2 hxl]
            exact Nat.lt_succ_of_lt (hb r (List.mem_cons_of_mem q hr)))
        rw [this, insertAt_get_lt q.2 hxl (Nat.lt_succ_self q.1)]
      · have := foldInsert_shift rest (insertAt (q.1 + 1) q.2 l) (q.1 + 1)
          (fun r hr => Nat.lt_succ_of_lt (hsort.1 r hr))
          (fun r hr => by
            rw [insertAt_length q.2 hxl]
            exact Nat.lt_succ_of_lt (hb r (List.mem_cons_of_mem q hr)))
        rw [show q.1 + rest.length + 1 = q.1 + 1 + rest.length by omega, this,
          insertAt_get_self q.2 hxl]
    · have hqx : q.1 < x.1 := hsort.1 q hq2
      have hfx : ((x :: rest).filter (fun r => decide (r.1 < q.1))).length =
          (rest.filter (fun r => decide (r.1 < q.1))).length := by
        rw [List.filter_cons, if_neg (by simp; omega)]
      rw [hfx, List.foldl_cons]
      have hrec := ih (insertAt (x.1 + 1) x.2 l) hsort.2
        (fun r hr => by
          rw [insertAt_length x.2 hxl]
          exact Nat.lt_succ_of_lt (hb r (List.mem_cons_of_mem x hr)))
        q hq2
      refine ⟨?_, hrec.2⟩
      rw [hrec.1, insertAt_get_lt x.2 hxl (by omega)]

theorem mkAdd_outputs (l : List String) (n : String) :
    (mkAdd l n).outputs = [("Out", [n])] := rfl

/-- C1 (amended): in a composite whose backward children `bwds` were built
by the reverse traversal, consider a name produced by the children at the
distinct recorded positions `ids` (at least two).  Then the loop renames
the producer recorded `i`-th so that it writes `name@RENAME@<uid>@<i>`
instead of `name` and schedules exactly one `add` aggregation operator
reading all the disambiguated names and writing `name`, recorded at the
last (maximal) producer position; and provided the recorded target
positions of the pending aggregations are pairwise distinct and the
generated rename names do not collide with the duplicated names, the
descending-order insertion places every aggregation operator immediately
after its (renamed) last producer in the final child sequence. -/
theorem claim_C1 (reg : Op → Option Op) (cs : List Op) (s : List String) (u : Nat)
    (bwds : List Op) (s1 : List String) (u1 : Nat) (name : String) (ids : List Nat)
    (hbl : BackwardList reg cs s u = some (bwds, s1, u1))
    (he : (name, ids) ∈ dupOutputOps bwds)
    (hk : 2 ≤ ids.length)
    (hids : ids.Nodup)
    (hdis : ((pendingOf u1 (dupOutputOps bwds)).map Prod.fst).Nodup)
    (hfresh : ∀ e ∈ dupOutputOps bwds, ∀ i, i < e.2.length →
      renName e.1 u1 i ∉ (dupOutputOps bwds).map Prod.fst) :
    (∀ ty ins outs,
      AllInSet ins kGradVarSuffix s = false →
      AllInSet outs kGradVarSuffix s = false →
      BackwardRecursive reg (Op.net ty ins outs cs) s u =
        some (sealNet "@GENERATED_BACKWARD@"
          (insertAggs (pendingOf u1 (dupOutputOps bwds))
            (foldRename u1 (dupOutputOps bwds) bwds)), s1, u1 + 1)) ∧
    (ids.getLastD 0,
        mkAdd ((List.range ids.length).map (renName name u1)) name) ∈
      pendingOf u1 (dupOutputOps bwds) ∧
    (∀ q ∈ pendingOf u1 (dupOutputOps bwds), q.2.outputs = [("Out", [name])] →
      q = (ids.getLastD 0,
        mkAdd ((List.range ids.length).map (renName name u1)) name)) ∧
    (∀ j ∈ ids, j ≤ ids.getLastD 0) ∧
    (∀ i, i < ids.length → ∃ j op0 op1,
      ids[i]? = some j ∧ bwds[j]? = some op0 ∧
      (foldRename u1 (dupOutputOps bwds) bwds)[j]? = some op1 ∧
      name ∈ varNamesVM op0.outputs ∧
      name ∉ varNamesVM op1.outputs ∧
      renName name u1 i ∈ varNamesVM op1.outputs) ∧
    ((insertAggs (pendingOf u1 (dupOutputOps bwds))
        (foldRename u1 (dupOutputOps bwds) bwds))[ids.getLastD 0 +
          countLtPend (pendingOf u1 (dupOutputOps bwds)) (ids.getLastD 0)]? =
      (foldRename u1 (dupOutputOps bwds) bwds)[ids.getLastD 0]? ∧
    (insertAggs (pendingOf u1 (dupOutputOps bwds))
        (foldRename u1 (dupOutputOps bwds) bwds))[ids.getLastD 0 +
          countLtPend (pendingOf u1 (dupOutputOps bwds)) (ids.getLastD 0) + 1]? =
      some (mkAdd ((List.range ids.length).map (renName name u1)) name)) := by
  have hinv := dupOutputOps_inv bwds
  have hkeys := dup_keys_nodup bwds
  obtain ⟨hne0, hsort0, hjs0⟩ := hinv.2 (name, ids) he
  have hlen1 : ¬ ids.length = 1 := by omega
  refine ⟨?_, ?_, ?_, ?_, ?_, ?_⟩
  -- (1) the composite branch assembles exactly this sequence
  · intro ty ins outs hin hout
    rw [backward_net_eq reg ty ins outs cs s u hin hout, hbl]
    dsimp only
    rw [processDups_eq u1 (dupOutputOps bwds) bwds []]
    dsimp only
    rw [List.nil_append]
  -- (2) the aggregation operator is pending, recorded at the last producer
  · exact mem_pendingOf.mpr ⟨(name, ids), he, hlen1, rfl⟩
  -- (3) no other pending aggregation writes this name
  · intro q hq hqout
    obtain ⟨e, he2, hlen2, rfl⟩ := mem_pendingOf.mp hq
    rw [mkAdd_outputs] at hqout
    have hename : e.1 = name := by
      simpa using hqout
    have hee : e = (name, ids) :=
      nodup_keys_unique (dupOutputOps bwds) hkeys e he2 (name, ids) he hename
    rw [hee]
  -- (4) the recorded last producer position is maximal
  · exact sorted_le_getLastD ids hsort0
  -- (5) the per-producer renaming
  · intro i hi
    have hj : ids[i]? = some (ids.get ⟨i, hi⟩) :=
      List.getElem?_eq_some_iff.mpr ⟨hi, rfl⟩
    set j := ids.get ⟨i, hi⟩ with hjdef
    have hjmem : j ∈ ids := mem_of_getElem_opt hj
    have hjlt : j < bwds.length := (hjs0 j hjmem).1
    obtain ⟨op0, hop0, hname0⟩ := (hjs0 j hjmem).2
    obtain ⟨d1, d2, hd⟩ := List.append_of_mem he
    have hkd := hkeys
    rw [hd, List.map_append, List.map_cons] at hkd
    obtain ⟨hnd1, hnd2c, hdisj⟩ := List.nodup_append.mp hkd
    have hname_not1 : name ∉ d1.map Prod.fst := fun hc =>
      hdisj hc (List.mem_cons_self name (d2.map Prod.fst))
    have hname_not2 : name ∉ d2.map Prod.fst := (List.nodup_cons.mp hnd2c).1
    have hname_key : name ∈ (dupOutputOps bwds).map Prod.fst :=
      List.mem_map_of_mem Prod.fst he
    have hsplit : foldRename u1 (dupOutputOps bwds) bwds =
        foldRename u1 d2
          (renameEntryAux u1 name 0 ids (foldRename u1 d1 bwds)) := by
      rw [hd]
      unfold foldRename
      rw [List.foldl_append, List.foldl_cons]
      rw [if_neg hlen1]
    set net1 := foldRename u1 d1 bwds with hnet1def
    have hlen_net1 : net1.length = bwds.length := foldRename_length u1 d1 bwds
    have hnet1j : net1[j]? = some (net1.get ⟨j, by rw [hlen_net1]; exact hjlt⟩) :=
      List.getElem?_eq_some_iff.mpr ⟨by rw [hlen_net1]; exact hjlt, rfl⟩
    set op1a := net1.get ⟨j, by rw [hlen_net1]; exact hjlt⟩ with hop1adef
    have hname1 : name ∈ varNamesVM op1a.outputs := by
      refine foldRename_pres u1 (fun o => name ∈ varNamesVM o.outputs) d1 bwds
        ?_ j ?_ op1a hnet1j
      · intro e he1 o i2 hi2 ho
        refine mem_rename_out_keep _ ?_ o ho
        intro hc
        exact hname_not1 (hc ▸ List.mem_map_of_mem Prod.fst he1)
      · intro op hop
        rw [hop0] at hop
        cases hop
        exact hname0
    set net2 := renameEntryAux u1 name 0 ids net1 with hnet2def
    have hnet2j : net2[j]? = some (Op.Rename name (renName name u1 i) op1a) := by
      rw [hnet2def, renameEntryAux_at u1 name ids 0 net1 hids i j hj, hnet1j]
      rw [Nat.zero_add]
      rfl
    have hlen_net2 : net2.length = bwds.length := by
      rw [hnet2def, renameEntryAux_length, hlen_net1]
    have hlen_full : (foldRename u1 (dupOutputOps bwds) bwds).length = bwds.length :=
      foldRename_length u1 (dupOutputOps bwds) bwds
    have hfullj : (foldRename u1 (dupOutputOps bwds) bwds)[j]? =
        some ((foldRename u1 (dupOutputOps bwds) bwds).get
          ⟨j, by rw [hlen_full]; exact hjlt⟩) :=
      List.getElem?_eq_some_iff.mpr ⟨by rw [hlen_full]; exact hjlt, rfl⟩
    set op1 := (foldRename u1 (dupOutputOps bwds) bwds).get
      ⟨j, by rw [hlen_full]; exact hjlt⟩ with hop1def
    have hfullj2 : (foldRename u1 d2 net2)[j]? = some op1 := by
      rw [← hsplit]
      exact hfullj
    have hmem_d2_sub : ∀ e ∈ d2, e ∈ dupOutputOps bwds := by
      intro e he2
      rw [hd]
      exact List.mem_append.mpr (Or.inr (List.mem_cons_of_mem _ he2))
    have hnot_name : name ∉ varNamesVM op1.outputs := by
      refine foldRename_pres u1 (fun o => name ∉ varNamesVM o.outputs) d2 net2
        ?_ j ?_ op1 hfullj2
      · intro e he2 o i2 hi2 ho
        refine not_mem_rename_out ?_ o ho
        intro hc
        exact hfresh e (hmem_d2_sub e he2) i2 hi2 (hc ▸ hname_key)
      · intro op hop
        rw [hnet2j] at hop
        cases hop
        exact rename_removes_out (renName_ne name u1 i) rfl op1a
    have hren_in : renName name u1 i ∈ varNamesVM op1.outputs := by
      refine foldRename_pres u1 (fun o => renName name u1 i ∈ varNamesVM o.outputs)
        d2 net2 ?_ j ?_ op1 hfullj2
      · intro e he2 o i2 hi2 ho
        refine mem_rename_out_keep _ ?_ o ho
        intro hc
        exact hfresh (name, ids) he i hi
          (by rw [← hc]; exact List.mem_map_of_mem Prod.fst (hmem_d2_sub e he2))
      · intro op hop
        rw [hnet2j] at hop
        cases hop
        rw [rename_outputs]
        exact List.mem_map.mpr ⟨name, hname1, by rw [if_pos rfl]⟩
    exact ⟨j, op0, op1, hj, hop0, hfullj, hname0, hnot_name, hren_in⟩
  -- (6) the aggregation lands immediately after its last producer
  · have hpos_bound : ∀ q ∈ pendingOf u1 (dupOutputOps bwds),
        q.1 < (foldRename u1 (dupOutputOps bwds) bwds).length := by
      intro q hq
      rw [foldRename_length]
      obtain ⟨e, he2, hlen2, rfl⟩ := mem_pendingOf.mp hq
      obtain ⟨hne2, hsort2, hjs2⟩ := hinv.2 e he2
      exact (hjs2 _ (getLastD_mem e.2 hne2 0)).1
    have hq0 : (ids.getLastD 0,
        mkAdd ((List.range ids.length).map (renName name u1)) name) ∈
        pendingOf u1 (dupOutputOps bwds) :=
      mem_pendingOf.mpr ⟨(name, ids), he, hlen1, rfl⟩
    have hsorted := sortPendDesc_sorted (pendingOf u1 (dupOutputOps bwds))
    have hperm := sortPendDesc_perm (pendingOf u1 (dupOutputOps bwds))
    have hnodup_sorted :
        ((sortPendDesc (pendingOf u1 (dupOutputOps bwds))).map Prod.fst).Nodup :=
      ((hperm.map Prod.fst).nodup_iff).mpr hdis
    have hstrict := sorted_strict hsorted hnodup_sorted
    have hbounds : ∀ q ∈ sortPendDesc (pendingOf u1 (dupOutputOps bwds)),
        q.1 < (foldRename u1 (dupOutputOps bwds) bwds).length := fun q hq =>
      hpos_bound q (hperm.mem_iff.mp hq)
    have hq0s : (ids.getLastD 0,
        mkAdd ((List.range ids.length).map (renName name u1)) name) ∈
        sortPendDesc (pendingOf u1 (dupOutputOps bwds)) :=
      hperm.mem_iff.mpr hq0
    have hspec := foldInsert_spec (sortPendDesc (pendingOf u1 (dupOutputOps bwds)))
      (foldRename u1 (dupOutputOps bwds) bwds) hstrict hbounds _ hq0s
    have hcount :
        ((sortPendDesc (pendingOf u1 (dupOutputOps bwds))).filter
          (fun r => decide (r.1 < ids.getLastD 0))).length =
        countLtPend (pendingOf u1 (dupOutputOps bwds)) (ids.getLastD 0) := by
      unfold countLtPend
      rw [← List.countP_eq_length_filter, ← List.countP_eq_length_filter]
      exact hperm.countP_eq _
    unfold insertAggs
    rw [← hcount]
    exact hspec

theorem claim_C1_witness :
    BackwardRecursive fgReg fgNet ["@EMPTY@@GRAD"] 0 =
      some (sealNet "@GENERATED_BACKWARD@"
        (insertAggs (pendingOf 0 (dupOutputOps [gGradOp, fGradOp]))
          (foldRename 0 (dupOutputOps [gGradOp, fGradOp]) [gGradOp, fGradOp])),
        ["@EMPTY@@GRAD"], 1) ∧
    (([0, 1] : List Nat).getLastD 0,
        mkAdd ((List.range ([0, 1] : List Nat).length).map (renName "A@GRAD" 0))
          "A@GRAD") ∈
      pendingOf 0 (dupOutputOps [gGradOp, fGradOp]) ∧
    (insertAggs (pendingOf 0 (dupOutputOps [gGradOp, fGradOp]))
        (foldRename 0 (dupOutputOps [gGradOp, fGradOp]) [gGradOp, fGradOp]))[
        ([0, 1] : List Nat).getLastD 0 +
        countLtPend (pendingOf 0 (dupOutputOps [gGradOp, fGradOp]))
          (([0, 1] : List Nat).getLastD 0) + 1]? =
      some (mkAdd ((List.range ([0, 1] : List Nat).length).map (renName "A@GRAD" 0))
        "A@GRAD") := by
  have C := claim_C1 fgReg [fOp, gOp] ["@EMPTY@@GRAD"] 0 [gGradOp, fGradOp]
    ["@EMPTY@@GRAD"] 0 "A@GRAD" [0, 1]
    (by decide) (by decide) (by decide) (by decide) (by decide) (by decide)
  exact ⟨C.1 "plain_net" [("all", ["A"])] [("all", ["B", "C"])] (by decide) (by decide),
    C.2.1, C.2.2.2.2.2.2⟩

/-- C1, the claim as stated, is false: when two multiply-produced names
share the same last-producer position, only the later-scheduled aggregation
operator ends up immediately after the shared producer.  In the concrete
scenario below, the aggregation for `a` is recorded at position `2` (its
last producer is the backward child at position `2`), but in the final
child sequence position `3` holds the aggregation for `b` and the
aggregation for `a` sits at position `4`. -/
theorem claim_C1_counterexample :
    BackwardList tieReg [tieP2, tieP1, tieP0] ["@EMPTY@@GRAD"] 0 =
      some ([tieQ0, tieQ1, tieQ2], ["@EMPTY@@GRAD"], 0) ∧
    dupOutputOps [tieQ0, tieQ1, tieQ2] = [("a", [0, 2]), ("b", [1, 2])] ∧
    pendingOf 0 (dupOutputOps [tieQ0, tieQ1, tieQ2]) =
      [(2, Op.prim "add" [("X", ["a@RENAME@0@0", "a@RENAME@0@1"])] [("Out", ["a"])]),
        (2, Op.prim "add" [("X", ["b@RENAME@0@0", "b@RENAME@0@1"])] [("Out", ["b"])])] ∧
    BackwardRecursive tieReg tieNet ["@EMPTY@@GRAD"] 0 =
      some (sealNet "@GENERATED_BACKWARD@"
        [Op.prim "q0" [("I", ["i0@GRAD"])] [("O", ["a@RENAME@0@0"])],
          Op.prim "q1" [("I", ["i1@GRAD"])] [("O", ["b@RENAME@0@0"])],
          Op.prim "q2" [("I", ["i2@GRAD"])] [("O", ["a@RENAME@0@1", "b@RENAME@0@1"])],
          Op.prim "add" [("X", ["b@RENAME@0@0", "b@RENAME@0@1"])] [("Out", ["b"])],
          Op.prim "add" [("X", ["a@RENAME@0@0", "a@RENAME@0@1"])] [("Out", ["a"])]],
        ["@EMPTY@@GRAD"], 1) ∧
    ([Op.prim "q0" [("I", ["i0@GRAD"])] [("O", ["a@RENAME@0@0"])],
        Op.prim "q1" [("I", ["i1@GRAD"])] [("O", ["b@RENAME@0@0"])],
        Op.prim "q2" [("I", ["i2@GRAD"])] [("O", ["a@RENAME@0@1", "b@RENAME@0@1"])],
        Op.prim "add" [("X", ["b@RENAME@0@0", "b@RENAME@0@1"])] [("Out", ["b"])],
        Op.prim "add" [("X", ["a@RENAME@0@0", "a@RENAME@0@1"])] [("Out", ["a"])]] :
      List Op)[2 + 1]? ≠
      some (Op.prim "add" [("X", ["a@RENAME@0@0", "a@RENAME@0@1"])] [("Out", ["a"])]) ∧
    ([Op.prim "q0" [("I", ["i0@GRAD"])] [("O", ["a@RENAME@0@0"])],
        Op.prim "q1" [("I", ["i1@GRAD"])] [("O", ["b@RENAME@0@0"])],
        Op.prim "q2" [("I", ["i2@GRAD"])] [("O", ["a@RENAME@0@1", "b@RENAME@0@1"])],
        Op.prim "add" [("X", ["b@RENAME@0@0", "b@RENAME@0@1"])] [("Out", ["b"])],
        Op.prim "add" [("X", ["a@RENAME@0@0", "a@RENAME@0@1"])] [("Out", ["a"])]] :
      List Op)[4]? =
      some (Op.prim "add" [("X", ["a@RENAME@0@0", "a@RENAME@0@1"])] [("Out", ["a"])]) := by
  exact ⟨by decide, by decide, by decide, by decide, by decide, by decide⟩

end PaddleBw
